import Mathlib

/-!
# Verification of the PBI-Swiss-Knife TMDL rule engine

A shallow embedding of `App.py`: the two naming-convention checkers
(`check_uppercase_first_letter_measures_tables`,
`check_no_pascalcase_columns_hierarchies`), their paired fixers, the
semantic-model folder resolver, and (modelled from the spec, the code being
absent from the repository) the annotation span scanner and store.

Text is modelled as `List Char`; the Python regular expressions used by the
checkers are `^`-anchored and, on the character classes involved, backtracking
is forced into a single deterministic path (a greedy run of a class can never
give back characters, because the character required after the run is never a
member of the class).  Each pattern is therefore embedded as a deterministic
scanner over the suffix at the match position, and `re.finditer` as a
left-to-right scan that only attempts matches at line starts and skips the
span of a reported match.  Character classes are the ASCII ones the patterns
name (`[A-Z]`, `\s`, `\w`, ...).
-/

set_option maxRecDepth 4000

namespace PBISK

/-! ## Character classes (ASCII, as used by the patterns in `App.py`) -/

/-- `[A-Z]`. -/
def isUp (c : Char) : Bool := decide (65 ≤ c.toNat ∧ c.toNat ≤ 90)

/-- `[a-z]`. -/
def isLo (c : Char) : Bool := decide (97 ≤ c.toNat ∧ c.toNat ≤ 122)

/-- `[0-9]`. -/
def isDi (c : Char) : Bool := decide (48 ≤ c.toNat ∧ c.toNat ≤ 57)

/-- `[A-Z0-9]`. -/
def isUD (c : Char) : Bool := isUp c || isDi c

/-- `[a-z0-9]`. -/
def isLD (c : Char) : Bool := isLo c || isDi c

/-- `[a-zA-Z]`. -/
def isLetter (c : Char) : Bool := isUp c || isLo c

/-- `\s`: space, tab, newline, carriage return, form feed, vertical tab. -/
def isWS (c : Char) : Bool :=
  decide (c.toNat = 32 ∨ c.toNat = 9 ∨ c.toNat = 10 ∨ c.toNat = 13 ∨ c.toNat = 12 ∨ c.toNat = 11)

/-- `\w`: word character. -/
def isWord (c : Char) : Bool := isUp c || isLo c || isDi c || c = '_'

/-- `str.islower()` of a one-character string (ASCII fragment). -/
def headLower : List Char → Bool
  | [] => false
  | c :: _ => isLo c

/-- `old_name[0].upper() + old_name[1:]` (ASCII fragment). -/
def upFirst : List Char → List Char
  | [] => []
  | c :: r => (if isLo c then Char.ofNat (c.toNat - 32) else c) :: r

/-- `'isHidden' in block`: substring containment. -/
def containsSeq (pat s : List Char) : Bool := s.tails.any (fun t => pat.isPrefixOf t)

/-!
## The PascalCase classifier (`is_pascalcase_without_spaces`, `App.py` 166–170)

`pascal_pattern = [A-Z]([A-Z0-9]*[a-z][a-z0-9]*[A-Z]|[a-z0-9]*[A-Z][A-Z0-9]*[a-z])[A-Za-z0-9]*`
tested with `re.match` (anchored at the start of the name, free at the end).
Each greedy star is followed by a character class disjoint from the star's
class, so the star consumes exactly its maximal run; the trailing
`[A-Za-z0-9]*` always matches the empty string.
-/

/-- Is the first character uppercase? -/
def headIsUp : List Char → Bool
  | d :: _ => isUp d
  | [] => false

/-- Is the first character lowercase? -/
def headIsLo : List Char → Bool
  | d :: _ => isLo d
  | [] => false

/-- First alternative `[A-Z0-9]*[a-z][a-z0-9]*[A-Z]` of `pascal_pattern`,
applied after the leading `[A-Z]`: the maximal `[A-Z0-9]` run, then a
lowercase letter, then the maximal `[a-z0-9]` run, then an uppercase
letter. -/
def alt1 (r : List Char) : Bool :=
  headIsLo (r.dropWhile isUD) && headIsUp ((r.dropWhile isUD).tail.dropWhile isLD)

/-- Second alternative `[a-z0-9]*[A-Z][A-Z0-9]*[a-z]` of `pascal_pattern`,
applied after the leading `[A-Z]`. -/
def alt2 (r : List Char) : Bool :=
  headIsUp (r.dropWhile isLD) && headIsLo ((r.dropWhile isLD).tail.dropWhile isUD)

/-- `bool(re.match(pascal_pattern, name))`. -/
def pascalMatch : List Char → Bool
  | [] => false
  | c :: r => isUp c && (alt1 r || alt2 r)

/-- `is_pascalcase_without_spaces` (`App.py` 168–170):
`bool(re.match(pascal_pattern, name)) and ' ' not in name`. -/
def is_pascalcase_without_spaces (name : List Char) : Bool :=
  pascalMatch name && !(name.contains ' ')

/-!
## The PascalCase checker (`check_no_pascalcase_columns_hierarchies`, `App.py` 158–213)

The content is split at `re.split(r'\n(?=\t*(?:column|...|hierarchy)\s+)', content)`
(the separator `\n` is consumed, the lookahead is not), each block is matched
against `re.match(r'\t*(column|...|hierarchy)\s+([A-Za-z][A-Za-z0-9_]*)', block)`,
blocks containing `isHidden` are skipped, and `current_line` advances by the
newline count of each block.
-/

/-- The declaration keywords, in the alternation order of the source pattern
(the five words are pairwise prefix-free, so at most one can match). -/
def pascalKws : List (List Char) :=
  ["column".data, "calculatedColumn".data, "dataColumn".data,
   "calculatedTableColumn".data, "hierarchy".data]

/-- The lookahead `(?=\t*(?:column|calculatedColumn|dataColumn|calculatedTableColumn|hierarchy)\s+)`
tested at the text following a `\n`. -/
def isSplitPoint (r : List Char) : Bool :=
  pascalKws.any (fun kw =>
    kw.isPrefixOf (r.dropWhile (fun c => c = '\t')) &&
      (match (r.dropWhile (fun c => c = '\t')).drop kw.length with
       | c :: _ => isWS c
       | [] => false))

/-- `re.split`: accumulate the current block, cutting at each `\n` whose
following text satisfies the lookahead (the `\n` is consumed). -/
def splitBlocksGo (acc : List Char) : List Char → List (List Char)
  | [] => [acc.reverse]
  | c :: r =>
    if c = '\n' ∧ isSplitPoint r = true then acc.reverse :: splitBlocksGo [] r
    else splitBlocksGo (c :: acc) r

def splitBlocks (content : List Char) : List (List Char) := splitBlocksGo [] content

/-- `re.match(r'\t*(column|...|hierarchy)\s+([A-Za-z][A-Za-z0-9_]*)', block)`:
returns the keyword (group 1) and identifier (group 2). -/
def blockDeclMatch (b : List Char) : Option (List Char × List Char) :=
  match pascalKws.find? (fun kw => kw.isPrefixOf (b.dropWhile (fun c => c = '\t'))) with
  | some kw =>
    let r := (b.dropWhile (fun c => c = '\t')).drop kw.length
    let ws := r.takeWhile isWS
    if ws.isEmpty then none
    else
      match r.drop ws.length with
      | c :: r2 => if isLetter c then some (kw, c :: r2.takeWhile isWord) else none
      | [] => none
  | none => none

/-- A violation of the NO_PASCALCASE_COLUMNS_HIERARCHIES rule
(the source dict has no `is_quoted` key for this rule). -/
structure PViolation where
  vtype : List Char
  name : List Char
  line : Nat
deriving DecidableEq

/-- The per-block body of the checker loop (`App.py` 184–207): match the
declaration header, skip the block when `isHidden` occurs in it, otherwise
test the identifier with `is_pascalcase_without_spaces`. -/
def blockViolation (b : List Char) (ln : Nat) : Option PViolation :=
  match blockDeclMatch b with
  | some (kw, name) =>
    if containsSeq "isHidden".data b then none
    else if is_pascalcase_without_spaces name then some ⟨kw, name, ln⟩
    else none
  | none => none

/-- The checker loop: `current_line` starts at 1 and advances by
`block.count('\n')` for every block (the `\n` consumed by the split is not
counted — this is the source's behaviour, kept faithfully). -/
def pascalViolationsGo (ln : Nat) : List (List Char) → List PViolation
  | [] => []
  | b :: bs =>
    match blockViolation b ln with
    | some v => v :: pascalViolationsGo (ln + b.count '\n') bs
    | none => pascalViolationsGo (ln + b.count '\n') bs

/-- `check_no_pascalcase_columns_hierarchies` restricted to one file's text. -/
def checkPascalContent (content : List Char) : List PViolation :=
  pascalViolationsGo 1 (splitBlocks content)

/-!
## The PascalCase fixer (`fix_pascalcase_columns_hierarchies`, `App.py` 215–254)

`new_name = re.sub(r'(?<!^)(?<![\W_])([A-Z][a-z])', r' \1', old_name)`:
a space is inserted before every uppercase-then-lowercase pair that does not
start the identifier and is not preceded by a non-word character or `_`.
Matches are two characters long and can never abut (the second character is
lowercase, a match's first is uppercase), so per-position insertion is exact.
-/

def spaceHere (prev c : Char) (rest : List Char) : Bool :=
  isUp c &&
    (match rest with
     | d :: _ => isLo d
     | [] => false) &&
    isWord prev && prev != '_'

def addSpacesGo (prev : Char) : List Char → List Char
  | [] => []
  | c :: rest =>
    if spaceHere prev c rest then ' ' :: c :: addSpacesGo c rest
    else c :: addSpacesGo c rest

def addSpaces : List Char → List Char
  | [] => []
  | c :: rest => c :: addSpacesGo c rest

/-!
## The substitution scanner shared by both fixers

Both fixers rewrite with `re.sub(rf"{type}\s+{escaped}\b", repl, content)`
(unquoted form) or `re.sub(rf"{type}\s+'{escaped}'", repl, content)` (quoted
form): a left-to-right scan replacing every non-overlapping occurrence.  The
greedy `\s+` backtracks from its maximal run downwards (`downK`).
-/

/-- Greedy `\s+` of length `k` followed by the literal `nm` and the
boundary test `bnd`: candidates are tried from the maximal whitespace run
length downwards, as the backtracking engine does. -/
def downK (nm : List Char) (r : List Char) (bnd : List Char → Bool) : Nat → Option Nat
  | 0 => none
  | k + 1 =>
    if nm.isPrefixOf (r.drop (k + 1)) && bnd (r.drop (k + 1 + nm.length)) then some (k + 1)
    else downK nm r bnd k

/-- `\b` directly after the literal `nm`: word-ness changes between the last
character of `nm` and the next character (a list end counts as non-word). -/
def bAfter (nm : List Char) (rest : List Char) : Bool :=
  isWord (nm.getLastD ' ') !=
    (match rest with
     | c :: _ => isWord c
     | [] => false)

/-- Attempt of `rf"{kw}\s+{re.escape(nm)}\b"` at the start of `s`: the
length of the match, if any. -/
def trySubU (kw nm : List Char) (s : List Char) : Option Nat :=
  if kw.isPrefixOf s then
    match downK nm (s.drop kw.length) (bAfter nm) ((s.drop kw.length).takeWhile isWS).length with
    | some k => some (kw.length + k + nm.length)
    | none => none
  else none

/-- Attempt of `rf"{kw}\s+'{re.escape(nm)}'"` at the start of `s`. -/
def trySubQ (kw nm : List Char) (s : List Char) : Option Nat :=
  if kw.isPrefixOf s then
    match downK ( '\'' :: (nm ++ [ '\''])) (s.drop kw.length) (fun _ => true)
        ((s.drop kw.length).takeWhile isWS).length with
    | some k => some (kw.length + k + nm.length + 2)
    | none => none
  else none

/-- `re.sub`: scan left to right; on a match of length `n` emit the
replacement and skip the matched span; otherwise copy one character. -/
def subGo (t : List Char → Option Nat) (repl : List Char) : Nat → List Char → List Char
  | _, [] => []
  | 0, c :: rest =>
    match t (c :: rest) with
    | some n => repl ++ subGo t repl (n - 1) rest
    | none => c :: subGo t repl 0 rest
  | k + 1, _ :: rest => subGo t repl k rest

/-- One violation's rewrite in `fix_pascalcase_columns_hierarchies`
(`App.py` 232–242): replacement `f"{type} '{new_name}'"`. -/
def fixPascalOne (v : PViolation) (content : List Char) : List Char :=
  subGo (trySubU v.vtype v.name) (v.vtype ++ ' ' :: '\'' :: (addSpaces v.name ++ [ '\''])) 0 content

/-- The fixer's loop over one file's violations, in list order. -/
def fixPascalContent (vs : List PViolation) (content : List Char) : List Char :=
  vs.foldl (fun c v => fixPascalOne v c) content

/-!
## The start-case checker (`check_uppercase_first_letter_measures_tables`, `App.py` 46–107)

Four `re.finditer` runs per file, in source order: quoted measures, unquoted
measures, quoted tables, unquoted tables.  All four patterns are `(?m)^`
anchored, so matches start at line starts only; `\s` may span newlines.
-/

structure UViolation where
  vtype : List Char
  name : List Char
  line : Nat
  is_quoted : Bool
deriving DecidableEq

/-- One attempt of `re.search(rf"{kw}\s+'{re.escape(nm)}'", g0)` at a tail
position (`\s+` is forced to its maximal run: a quote is not whitespace). -/
def searchQuotedAt (kw nm : List Char) (t : List Char) : Bool :=
  kw.isPrefixOf t &&
    !((t.drop kw.length).takeWhile isWS).isEmpty &&
    ( '\'' :: (nm ++ [ '\''])).isPrefixOf
      ((t.drop kw.length).drop ((t.drop kw.length).takeWhile isWS).length)

/-- `bool(re.search(rf"{kw}\s+'{re.escape(nm)}'", g0))` — the `is_quoted`
computation of `App.py` 73 and 94. -/
def searchQuoted (kw nm g0 : List Char) : Bool := g0.tails.any (searchQuotedAt kw nm)

/-- The tail `(?:\s*=|$)`: either the maximal whitespace run followed by `=`
(consuming both), or the multiline `$` (end of input or before `\n`,
consuming nothing); otherwise the whole match fails. -/
def tailEq (r : List Char) : Option Nat :=
  match r.drop (r.takeWhile isWS).length with
  | '=' :: _ => some ((r.takeWhile isWS).length + 1)
  | _ =>
    match r with
    | [] => some 0
    | c :: _ => if c = '\n' then some 0 else none

/-- `(?m)^table\s+([a-zA-Z][a-zA-Z0-9_]*)\b` at a line start: payload
`(group 1, group 0)` and the match length. -/
def tryUT (s : List Char) : Option ((List Char × List Char) × Nat) :=
  if "table".data.isPrefixOf s then
    if ((s.drop 5).takeWhile isWS).isEmpty then none
    else
      match (s.drop 5).drop ((s.drop 5).takeWhile isWS).length with
      | c :: r2 =>
        if isLetter c then
          some ((c :: r2.takeWhile isWord,
                 s.take (5 + ((s.drop 5).takeWhile isWS).length +
                   (c :: r2.takeWhile isWord).length)),
                5 + ((s.drop 5).takeWhile isWS).length + (c :: r2.takeWhile isWord).length)
        else none
      | [] => none
  else none

/-- `(?m)^table\s+'([^']+?)'(?:\s*=|$)` at a line start. -/
def tryQT (s : List Char) : Option ((List Char × List Char) × Nat) :=
  if "table".data.isPrefixOf s then
    if ((s.drop 5).takeWhile isWS).isEmpty then none
    else
      match (s.drop 5).drop ((s.drop 5).takeWhile isWS).length with
      | '\'' :: r2 =>
        if (r2.takeWhile (fun d => d != '\'')).isEmpty then none
        else
          match r2.drop (r2.takeWhile (fun d => d != '\'')).length with
          | '\'' :: r3 =>
            match tailEq r3 with
            | some e =>
              some ((r2.takeWhile (fun d => d != '\''),
                     s.take (5 + ((s.drop 5).takeWhile isWS).length +
                       (r2.takeWhile (fun d => d != '\'')).length + 2 + e)),
                    5 + ((s.drop 5).takeWhile isWS).length +
                      (r2.takeWhile (fun d => d != '\'')).length + 2 + e)
            | none => none
          | _ => none
      | _ => none
  else none

/-- `(?m)^\s*measure\s+([a-zA-Z][a-zA-Z0-9_]*)\b(?:\s*=|$)` at a line start. -/
def tryUM (s : List Char) : Option ((List Char × List Char) × Nat) :=
  if "measure".data.isPrefixOf (s.drop (s.takeWhile isWS).length) then
    let r := (s.drop (s.takeWhile isWS).length).drop 7
    let ws := r.takeWhile isWS
    if ws.isEmpty then none
    else
      match r.drop ws.length with
      | c :: r2 =>
        if isLetter c then
          match tailEq (r2.dropWhile isWord) with
          | some e =>
            some ((c :: r2.takeWhile isWord,
                   s.take ((s.takeWhile isWS).length + 7 + ws.length +
                     (c :: r2.takeWhile isWord).length + e)),
                  (s.takeWhile isWS).length + 7 + ws.length +
                    (c :: r2.takeWhile isWord).length + e)
          | none => none
        else none
      | [] => none
  else none

/-- `(?m)^\s*measure\s+'([^']+?)'(?:\s*=|$)` at a line start. -/
def tryQM (s : List Char) : Option ((List Char × List Char) × Nat) :=
  if "measure".data.isPrefixOf (s.drop (s.takeWhile isWS).length) then
    let r := (s.drop (s.takeWhile isWS).length).drop 7
    let ws := r.takeWhile isWS
    if ws.isEmpty then none
    else
      match r.drop ws.length with
      | '\'' :: r2 =>
        let nm := r2.takeWhile (fun d => d != '\'')
        if nm.isEmpty then none
        else
          match r2.drop nm.length with
          | '\'' :: r3 =>
            match tailEq r3 with
            | some e =>
              some ((nm, s.take ((s.takeWhile isWS).length + 7 + ws.length + nm.length + 2 + e)),
                    (s.takeWhile isWS).length + 7 + ws.length + nm.length + 2 + e)
            | none => none
          | _ => none
      | _ => none
  else none

def nlInc (c : Char) : Nat := if c = '\n' then 1 else 0

/-- `re.finditer` for a `(?m)^`-anchored pattern: one character is consumed
per step; `nl` counts the newlines before the current position, `bol` says
whether the position is a line start, and a positive `skip` says the position
is inside the span of an already-reported match (where no new match may
start).  On a match at a line start the payload is emitted with line number
`nl + 1` — `content.count('\n', 0, match.start()) + 1` of the source. -/
def goScan {α : Type} (t : List Char → Option (α × Nat)) :
    Nat → Nat → Bool → List Char → List (Nat × α)
  | _, _, _, [] => []
  | 0, nl, bol, c :: rest =>
    if bol then
      match t (c :: rest) with
      | some (a, n) => (nl + 1, a) :: goScan t (n - 1) (nl + nlInc c) (decide (c = '\n')) rest
      | none => goScan t 0 (nl + nlInc c) (decide (c = '\n')) rest
    else goScan t 0 (nl + nlInc c) (decide (c = '\n')) rest
  | k + 1, nl, _, c :: rest => goScan t k (nl + nlInc c) (decide (c = '\n')) rest

def scanAll {α : Type} (t : List Char → Option (α × Nat)) (content : List Char) :
    List (Nat × α) :=
  goScan t 0 0 true content

/-- Build a violation from a match: reported only when
`name[0].islower()`; `is_quoted` is recomputed by searching group 0. -/
def mkUpper (ty : List Char) (e : Nat × (List Char × List Char)) : Option UViolation :=
  if headLower e.2.1 then some ⟨ty, e.2.1, e.1, searchQuoted ty e.2.1 e.2.2⟩ else none

/-- `check_uppercase_first_letter_measures_tables` restricted to one file's
text: quoted measures, unquoted measures, quoted tables, unquoted tables,
in the source's order. -/
def checkUpperContent (content : List Char) : List UViolation :=
  (scanAll tryQM content).filterMap (mkUpper "measure".data) ++
  (scanAll tryUM content).filterMap (mkUpper "measure".data) ++
  (scanAll tryQT content).filterMap (mkUpper "table".data) ++
  (scanAll tryUT content).filterMap (mkUpper "table".data)

/-!
## The start-case fixer (`fix_uppercase_first_letter`, `App.py` 109–156)
-/

/-- One violation's rewrite: quoted shape uses
`rf"{type}\s+'{name}'" -> f"{type} '{Name}'"`, unquoted
`rf"{type}\s+{name}\b" -> f"{type} {Name}"`. -/
def fixUpperOne (v : UViolation) (content : List Char) : List Char :=
  if v.is_quoted then
    subGo (trySubQ v.vtype v.name) (v.vtype ++ ' ' :: '\'' :: (upFirst v.name ++ [ '\''])) 0 content
  else
    subGo (trySubU v.vtype v.name) (v.vtype ++ ' ' :: upFirst v.name) 0 content

def checkUpperFiles (files : List (List Char)) : List (Nat × UViolation) :=
  (files.enum.map (fun p => (checkUpperContent p.2).map (fun v => (p.1, v)))).flatten

def checkPascalFiles (files : List (List Char)) : List (Nat × PViolation) :=
  (files.enum.map (fun p => (checkPascalContent p.2).map (fun v => (p.1, v)))).flatten

def check_uppercase_first_letter_measures_tables (content : Option (List Char))
    (tables : List (List Char)) : Option (List (Nat × UViolation)) :=
  match content with
  | none => none
  | some c =>
    if c.isEmpty then none
    else
      if (checkUpperFiles (c :: tables)).isEmpty then none
      else some (checkUpperFiles (c :: tables))

def check_no_pascalcase_columns_hierarchies (content : Option (List Char))
    (tables : List (List Char)) : Option (List (Nat × PViolation)) :=
  match content with
  | none => none
  | some c =>
    if c.isEmpty then none
    else
      if (checkPascalFiles (c :: tables)).isEmpty then none
      else some (checkPascalFiles (c :: tables))

/-- The `RuleChecker` state the checker methods read (`self.content`,
`self.table_files`); a checker call performs no write, so it returns the
state unchanged. -/
structure CheckerSt where
  content : Option (List Char)
  tables : List (List Char)

def checkUpperStep (s : CheckerSt) : CheckerSt × Option (List (Nat × UViolation)) :=
  (s, check_uppercase_first_letter_measures_tables s.content s.tables)

def checkPascalStep (s : CheckerSt) : CheckerSt × Option (List (Nat × PViolation)) :=
  (s, check_no_pascalcase_columns_hierarchies s.content s.tables)

/-!
## `load_semantic_model` (`App.py` 7–20)
-/

/-- The filesystem is abstracted as an existence predicate on path strings;
path joining appends `/component` as `pathlib`'s `/` does. -/
def load_semantic_model (fsExists : String → Bool) (folder : String) :
    Option String × Option String :=
  if !fsExists folder then (none, some "Selected folder does not exist")
  else if !fsExists (folder ++ "/definition") then
    (none, some "definition folder not found in semantic model")
  else if !fsExists (folder ++ "/definition/model.tmdl") then
    (none, some "model.tmdl not found in definition folder")
  else (some (folder ++ "/definition/model.tmdl"), none)

/-!
## The annotation span scanner and store

Modelled from the spec: no span-scanner or annotation-store code exists under
`src/` (only `App.py` is in the repository); the definitions below follow
§4.1 `findBracketedSpan` and §4.2 `load`/`save` of the spec literally.
Records are the verbatim element slices of the array literal (the spec's
"extra fields are carried through unchanged" / "records round-trip with no
change"), so reserialization is `intercalate ","`.
-/

inductive SpanRes
  | found (s e : Nat)
  | notFound
  | malformed
deriving DecidableEq

/-- Modelled from the spec: the §4.1 scan loop.  `pos` is the index of the
next character, `depth` the bracket nesting counter, `inStr` and `esc` the
two booleans; returns the end index (one past the closing bracket) or
`none` for unbalanced input. -/
def spanGo (oc cc : Char) : List Char → Nat → Nat → Bool → Bool → Option Nat
  | [], _, _, _, _ => none
  | c :: r, pos, depth, inStr, esc =>
    if esc then spanGo oc cc r (pos + 1) depth inStr false
    else if c = '\\' then spanGo oc cc r (pos + 1) depth inStr true
    else if c = '"' then spanGo oc cc r (pos + 1) depth (!inStr) false
    else if inStr then spanGo oc cc r (pos + 1) depth inStr false
    else if c = oc then spanGo oc cc r (pos + 1) (depth + 1) inStr false
    else if c = cc then
      if depth = 1 then some (pos + 1) else spanGo oc cc r (pos + 1) (depth - 1) inStr false
    else spanGo oc cc r (pos + 1) depth inStr false

/-- First index `≥` the start where the predicate holds (absolute index). -/
def findFrom (p : Char → Bool) : List Char → Nat → Option Nat
  | [], _ => none
  | c :: r, i => if p c then some i else findFrom p r (i + 1)

/-- Modelled from the spec: §4.1 `findBracketedSpan(text, searchStart, oc, cc)`.
The span runs from the first `oc` at or after `searchStart` to one past its
balancing `cc`. -/
def findBracketedSpan (text : List Char) (searchStart : Nat) (oc cc : Char) : SpanRes :=
  match findFrom (fun c => c == oc) (text.drop searchStart) searchStart with
  | none => SpanRes.notFound
  | some s =>
    match spanGo oc cc (text.drop (s + 1)) (s + 1) 1 false false with
    | some e => SpanRes.found s e
    | none => SpanRes.malformed

/-- First index where `pat` occurs as a substring. -/
def findSubFrom (pat : List Char) : List Char → Nat → Option Nat
  | [], i => if pat.isEmpty then some i else none
  | c :: r, i => if pat.isPrefixOf (c :: r) then some i else findSubFrom pat r (i + 1)

def isOpenB (c : Char) : Bool := c = Char.ofNat 123 || c = '['

def isCloseB (c : Char) : Bool := c = Char.ofNat 125 || c = ']'

/-- Modelled from the spec: decode of the array literal's inside into the
ordered record slices — cut at every comma visible at nesting depth 0
outside string literals (string-aware, escape-aware, like §4.1's scan). -/
def splitTopGo (cur : List Char) : List Char → Nat → Bool → Bool → List (List Char)
  | [], _, _, _ => [cur.reverse]
  | c :: r, depth, inStr, esc =>
    if esc then splitTopGo (c :: cur) r depth inStr false
    else if c = '\\' then splitTopGo (c :: cur) r depth inStr true
    else if c = '"' then splitTopGo (c :: cur) r depth (!inStr) false
    else if inStr then splitTopGo (c :: cur) r depth inStr false
    else if c = ',' ∧ depth = 0 then cur.reverse :: splitTopGo [] r depth inStr false
    else if isOpenB c then splitTopGo (c :: cur) r (depth + 1) inStr false
    else if isCloseB c then splitTopGo (c :: cur) r (depth - 1) inStr false
    else splitTopGo (c :: cur) r depth inStr false

def decodeRecords (inside : List Char) : List (List Char) := splitTopGo [] inside 0 false false

/-- Join the record slices back with the separating commas. -/
def joinComma : List (List Char) → List Char
  | [] => []
  | [x] => x
  | x :: y :: t => x ++ ',' :: joinComma (y :: t)

def serializeRecords (records : List (List Char)) : List Char := joinComma records

inductive StoreErr
  | markerNotFound
  | arrayNotFound
  | malformedLiteral
deriving DecidableEq

/-- Modelled from the spec: §4.2 `load(filePath, markerText)` — find the
marker, find the bracketed span from there, decode the inside. -/
def loadRules (text marker : List Char) : Except StoreErr (List (List Char)) :=
  match findSubFrom marker text 0 with
  | none => Except.error StoreErr.markerNotFound
  | some i =>
    match findBracketedSpan text i '[' ']' with
    | SpanRes.notFound => Except.error StoreErr.arrayNotFound
    | SpanRes.malformed => Except.error StoreErr.malformedLiteral
    | SpanRes.found s e => Except.ok (decodeRecords ((text.drop (s + 1)).take (e - s - 2)))

/-- Modelled from the spec: §4.2 `save(filePath, markerText, records)` —
repeat the same lookup and replace exactly the located span, copying the
text before `spanStart` and from `spanEnd` onward verbatim. -/
def saveRules (text marker : List Char) (records : List (List Char)) :
    Except StoreErr (List Char) :=
  match findSubFrom marker text 0 with
  | none => Except.error StoreErr.markerNotFound
  | some i =>
    match findBracketedSpan text i '[' ']' with
    | SpanRes.notFound => Except.error StoreErr.arrayNotFound
    | SpanRes.malformed => Except.error StoreErr.malformedLiteral
    | SpanRes.found s e =>
      Except.ok (text.take s ++ '[' :: (serializeRecords records ++ ']' :: text.drop e))

/-!
## Statement-side definitions for the claims
-/

/-- The spec's line formula (§4.4): one plus the newlines before the offset. -/
def claimLine (content : List Char) (offset : Nat) : Nat :=
  (content.take offset).count '\n' + 1

/-- An unquoted-table header truncated before its identifier: `table`
followed by nothing but whitespace up to the end of the prefix.  Such a
header's `\s+` absorbs the following line. -/
def badTailUT (t : List Char) : Bool :=
  "table".data.isPrefixOf t && !(t.drop 5).isEmpty && (t.drop 5).all isWS

def hasAbsorberGo : List Char → Bool
  | [] => false
  | c :: r => (decide (c = '\n') && badTailUT r) || hasAbsorberGo r

/-- Does some line start of `pre` begin a truncated unquoted-table header
running to the end of `pre`? -/
def hasAbsorber (pre : List Char) : Bool := badTailUT pre || hasAbsorberGo pre

/-- The text `column 'Sales AmountUSD'` the fixer actually produces. -/
def exC2fixed : List Char := "column ".data ++ '\'' :: ("Sales AmountUSD".data ++ [ '\''])

/-- The text `column 'Sales Amount USD'` the claim expects. -/
def exC2claim : List Char := "column ".data ++ '\'' :: ("Sales Amount USD".data ++ [ '\''])

/-- The claim's reading of the PascalCase classifier (C4): the identifier
*contains*, anywhere, an uppercase run followed by a lowercase run followed
by an uppercase letter. -/
def ContainsTransitionULU (s : List Char) : Prop :=
  ∃ a u l d b, s = a ++ u ++ l ++ d :: b ∧ u ≠ [] ∧ (∀ x ∈ u, isUp x = true) ∧
    l ≠ [] ∧ (∀ x ∈ l, isLo x = true) ∧ isUp d = true

/-- The symmetric (lowercase-first) transition of the claim: a lowercase run
followed by an uppercase run followed by a lowercase letter. -/
def ContainsTransitionLUL (s : List Char) : Prop :=
  ∃ a l u d b, s = a ++ l ++ u ++ d :: b ∧ l ≠ [] ∧ (∀ x ∈ l, isLo x = true) ∧
    u ≠ [] ∧ (∀ x ∈ u, isUp x = true) ∧ isLo d = true

/-- The classifier as the claim states it: some transition anywhere, and no
space character. -/
def SpecClaimClassifier (s : List Char) : Prop :=
  (ContainsTransitionULU s ∨ ContainsTransitionLUL s) ∧ s.contains ' ' = false

/-- What the source's anchored `re.match` actually requires, first
alternative: `[A-Z0-9]*[a-z][a-z0-9]*[A-Z]` right after the leading
uppercase letter (the trailing `[A-Za-z0-9]*` matches the empty string, so
the rest `t` is arbitrary). -/
def AnchoredAlt1 (r : List Char) : Prop :=
  ∃ u lc ls d t, r = u ++ lc :: (ls ++ d :: t) ∧ (∀ x ∈ u, isUD x = true) ∧
    isLo lc = true ∧ (∀ x ∈ ls, isLD x = true) ∧ isUp d = true

/-- Second alternative: `[a-z0-9]*[A-Z][A-Z0-9]*[a-z]` right after the
leading uppercase letter. -/
def AnchoredAlt2 (r : List Char) : Prop :=
  ∃ l uc us d t, r = l ++ uc :: (us ++ d :: t) ∧ (∀ x ∈ l, isLD x = true) ∧
    isUp uc = true ∧ (∀ x ∈ us, isUD x = true) ∧ isLo d = true

/-- The anchored classifier: the pattern must match at the identifier's
start, so the first character is uppercase and the transition follows it
immediately. -/
def AnchoredPascal (s : List Char) : Prop :=
  ∃ c r, s = c :: r ∧ isUp c = true ∧ (AnchoredAlt1 r ∨ AnchoredAlt2 r)

/-!
# Theorems

Helper lemmas first, then one theorem per claim (with its witness or
counterexample where required).
-/

/-! ## Character-class facts -/

lemma isUD_eq_false_of_isLo {c : Char} (h : isLo c = true) : isUD c = false := by
  simp only [isLo, decide_eq_true_eq] at h
  simp only [isUD, isUp, isDi, Bool.or_eq_false_iff, decide_eq_false_iff_not]
  omega

lemma isLD_eq_false_of_isUp {c : Char} (h : isUp c = true) : isLD c = false := by
  simp only [isUp, decide_eq_true_eq] at h
  simp only [isLD, isLo, isDi, Bool.or_eq_false_iff, decide_eq_false_iff_not]
  omega

/-! ## `dropWhile` over a decomposed list -/

lemma dropWhile_all_append {p : Char → Bool} {u : List Char} {c : Char} {t : List Char}
    (hu : ∀ x ∈ u, p x = true) (hc : p c = false) :
    (u ++ c :: t).dropWhile p = c :: t := by
  induction u with
  | nil => simp [List.dropWhile_cons, hc]
  | cons a u ih =>
    have ha : p a = true := hu a (by simp)
    simp only [List.cons_append, List.dropWhile_cons, ha, if_true]
    exact ih (fun x hx => hu x (by simp [hx]))

/-! ## The two pascal alternatives against their anchored decompositions -/

lemma alt1_iff (r : List Char) : alt1 r = true ↔ AnchoredAlt1 r := by
  constructor
  · intro h
    unfold alt1 at h
    cases h1 : r.dropWhile isUD with
    | nil => rw [h1] at h; exact absurd h (by simp [headIsLo])
    | cons c rest =>
      rw [h1] at h
      simp only [headIsLo, List.tail_cons, Bool.and_eq_true] at h
      obtain ⟨hc, h⟩ := h
      cases h2 : rest.dropWhile isLD with
      | nil => rw [h2] at h; exact absurd h (by simp [headIsUp])
      | cons d rest2 =>
        rw [h2] at h
        simp only [headIsUp] at h
        refine ⟨r.takeWhile isUD, c, rest.takeWhile isLD, d, rest2, ?_, ?_, hc, ?_, h⟩
        · conv_lhs => rw [← List.takeWhile_append_dropWhile isUD r]
          rw [h1]
          congr 1
          rw [← h2, List.takeWhile_append_dropWhile]
        · exact fun x hx => List.mem_takeWhile_imp hx
        · exact fun x hx => List.mem_takeWhile_imp hx
  · rintro ⟨u, lc, ls, d, t, rfl, hu, hlc, hls, hd⟩
    unfold alt1
    rw [dropWhile_all_append hu (isUD_eq_false_of_isLo hlc)]
    simp only [List.tail_cons]
    rw [dropWhile_all_append hls (isLD_eq_false_of_isUp hd)]
    simp [headIsLo, headIsUp, hlc, hd]

lemma alt2_iff (r : List Char) : alt2 r = true ↔ AnchoredAlt2 r := by
  constructor
  · intro h
    unfold alt2 at h
    cases h1 : r.dropWhile isLD with
    | nil => rw [h1] at h; exact absurd h (by simp [headIsUp])
    | cons c rest =>
      rw [h1] at h
      simp only [headIsUp, List.tail_cons, Bool.and_eq_true] at h
      obtain ⟨hc, h⟩ := h
      cases h2 : rest.dropWhile isUD with
      | nil => rw [h2] at h; exact absurd h (by simp [headIsLo])
      | cons d rest2 =>
        rw [h2] at h
        simp only [headIsLo] at h
        refine ⟨r.takeWhile isLD, c, rest.takeWhile isUD, d, rest2, ?_, ?_, hc, ?_, h⟩
        · conv_lhs => rw [← List.takeWhile_append_dropWhile isLD r]
          rw [h1]
          congr 1
          rw [← h2, List.takeWhile_append_dropWhile]
        · exact fun x hx => List.mem_takeWhile_imp hx
        · exact fun x hx => List.mem_takeWhile_imp hx
  · rintro ⟨l, uc, us, d, t, rfl, hl, huc, hus, hd⟩
    unfold alt2
    rw [dropWhile_all_append hl (isLD_eq_false_of_isUp huc)]
    simp only [List.tail_cons]
    rw [dropWhile_all_append hus (isUD_eq_false_of_isLo hd)]
    simp [headIsUp, headIsLo, huc, hd]

/-- C4 (amended): the classifier returns true iff the anchored pattern
matches at the start of the identifier — the first character is uppercase
and a case transition follows immediately — and the identifier has no
space; in particular an identifier beginning with a lowercase letter never
matches, whatever transitions it contains. -/
theorem C4_classifier_anchored (s : List Char) :
    is_pascalcase_without_spaces s = true ↔ AnchoredPascal s ∧ s.contains ' ' = false := by
  unfold is_pascalcase_without_spaces AnchoredPascal
  cases s with
  | nil => simp [pascalMatch]
  | cons c r =>
    simp only [pascalMatch, Bool.and_eq_true, Bool.not_eq_true', Bool.or_eq_true]
    constructor
    · rintro ⟨⟨hc, halt⟩, hsp⟩
      exact ⟨⟨c, r, rfl, hc, by rw [← alt1_iff, ← alt2_iff]; exact halt⟩, hsp⟩
    · rintro ⟨⟨c', r', heq, hc, halt⟩, hsp⟩
      cases heq
      exact ⟨⟨hc, by rw [← alt1_iff, ← alt2_iff] at halt; exact halt⟩, hsp⟩

/-- C4 (counterexample): `dimSalesAmount` contains the transition
`S`/`ales`/`A` and no space, so the claim classifies it as a match, but
the source's anchored classifier returns false because the identifier
starts with a lowercase letter. -/
theorem C4_counterexample :
    SpecClaimClassifier "dimSalesAmount".data ∧
      is_pascalcase_without_spaces "dimSalesAmount".data = false := by
  refine ⟨⟨Or.inl ⟨"dim".data, "S".data, "ales".data, 'A', "mount".data, ?_, ?_, ?_, ?_, ?_, ?_⟩, ?_⟩, ?_⟩
  · decide
  · decide
  · decide
  · decide
  · decide
  · decide
  · decide
  · decide

/-- C3: a declaration block that contains the token `isHidden` anywhere
produces no violation, whatever the identifier's casing, and contributes
nothing to the checker's output wherever it sits in the block list. -/
theorem C3_hidden_block_exempt (b : List Char) (ln : Nat) (bs : List (List Char))
    (h : containsSeq "isHidden".data b = true) :
    blockViolation b ln = none ∧
      pascalViolationsGo ln (b :: bs) = pascalViolationsGo (ln + b.count '\n') bs := by
  have hv : blockViolation b ln = none := by
    unfold blockViolation
    cases blockDeclMatch b with
    | none => rfl
    | some p => simp [h]
  exact ⟨hv, by rw [pascalViolationsGo, hv]⟩

/-- C3 witness: a concrete hidden PascalCase column block is skipped. -/
theorem C3_witness :
    blockViolation "column SalesAmountUSD\n\tisHidden = true".data 3 = none :=
  (C3_hidden_block_exempt "column SalesAmountUSD\n\tisHidden = true".data 3 [] (by decide)).1

/-- C5 (bug evidence): on `"x\ncolumn FooBar"` the PascalCase checker
reports the `FooBar` violation at line 1, while the declaration's offset is
2 and one plus the newlines before it — the claim's formula, and the true
line — is 2: the `\n` consumed by each block split is never added to
`current_line`. -/
theorem C5_pascal_line_drift :
    checkPascalContent "x\ncolumn FooBar".data =
      [⟨"column".data, "FooBar".data, 1⟩] ∧
      List.drop 2 "x\ncolumn FooBar".data = "column FooBar".data ∧
      claimLine "x\ncolumn FooBar".data 2 = 2 := by
  refine ⟨by decide, by decide, by decide⟩

/-- C7: a checker call reads the loaded state and writes nothing, so
running it twice in a row over the same unmodified contents yields
identical violation lists (and the state after the first run is the state
before it). -/
theorem C7_checker_runs_identical (s : CheckerSt) :
    (checkUpperStep (checkUpperStep s).1).2 = (checkUpperStep s).2 ∧
      (checkPascalStep (checkPascalStep s).1).2 = (checkPascalStep s).2 ∧
      (checkUpperStep s).1 = s ∧ (checkPascalStep s).1 = s :=
  ⟨rfl, rfl, rfl, rfl⟩

/-- C8: the resolver validates root folder, `definition` subfolder and
`model.tmdl` in that order; the first failing check short-circuits with its
own distinct message and no path; success returns the path and no error. -/
theorem C8_resolver_order (fs : String → Bool) (folder : String) :
    (fs folder = false →
      load_semantic_model fs folder = (none, some "Selected folder does not exist")) ∧
    (fs folder = true → fs (folder ++ "/definition") = false →
      load_semantic_model fs folder =
        (none, some "definition folder not found in semantic model")) ∧
    (fs folder = true → fs (folder ++ "/definition") = true →
      fs (folder ++ "/definition/model.tmdl") = false →
      load_semantic_model fs folder =
        (none, some "model.tmdl not found in definition folder")) ∧
    (fs folder = true → fs (folder ++ "/definition") = true →
      fs (folder ++ "/definition/model.tmdl") = true →
      load_semantic_model fs folder = (some (folder ++ "/definition/model.tmdl"), none)) ∧
    ("Selected folder does not exist" ≠ "definition folder not found in semantic model" ∧
      "Selected folder does not exist" ≠ "model.tmdl not found in definition folder" ∧
      "definition folder not found in semantic model" ≠
        "model.tmdl not found in definition folder") := by
  refine ⟨?_, ?_, ?_, ?_, by decide, by decide, by decide⟩ <;>
    intros <;> simp_all [load_semantic_model]

/-- C8 witness: the resolver applied to an empty filesystem. -/
theorem C8_witness :
    load_semantic_model (fun _ => false) "m" = (none, some "Selected folder does not exist") :=
  (C8_resolver_order (fun _ => false) "m").1 rfl

/-- C10: both checker methods return `None` — never an empty list — when no
violation exists, and `None` when the main content failed to load, so the
two outcomes are indistinguishable from the return value. -/
theorem C10_none_for_clean_and_unloaded (c : List Char) (tables : List (List Char))
    (h : checkUpperFiles (c :: tables) = [] ∧ checkPascalFiles (c :: tables) = []) :
    check_uppercase_first_letter_measures_tables (some c) tables = none ∧
      check_no_pascalcase_columns_hierarchies (some c) tables = none ∧
      check_uppercase_first_letter_measures_tables none tables = none ∧
      check_no_pascalcase_columns_hierarchies none tables = none := by
  refine ⟨?_, ?_, rfl, rfl⟩ <;>
    cases hc : c.isEmpty <;>
      simp [check_uppercase_first_letter_measures_tables,
        check_no_pascalcase_columns_hierarchies, hc, h.1, h.2]

/-- C10 witness: a clean one-file model gives `None` from both checkers,
the same value an unloadable model gives. -/
theorem C10_witness :
    check_uppercase_first_letter_measures_tables (some "Table A".data) [] = none ∧
      check_no_pascalcase_columns_hierarchies (some "Table A".data) [] = none := by
  have h := C10_none_for_clean_and_unloaded "Table A".data [] (by constructor <;> decide)
  exact ⟨h.1, h.2.1⟩

/-- C2 (counterexample): on `column SalesAmountUSD` the checker does report
a violation, but the fixer's spaced form is `Sales AmountUSD` — the regex
`(?<!^)(?<![\W_])([A-Z][a-z])` only fires on an uppercase letter followed
by a lowercase one, so no space appears before the trailing all-uppercase
segment `USD`, contradicting the claimed rewrite `column 'Sales Amount USD'`. -/
theorem C2_counterexample :
    checkPascalContent "column SalesAmountUSD".data ≠ [] ∧
      fixPascalContent (checkPascalContent "column SalesAmountUSD".data)
        "column SalesAmountUSD".data ≠ exC2claim := by
  exact ⟨by decide, by decide⟩

/-- C2 (amended): the visible declaration `column SalesAmountUSD` is a
PascalCase violation, and the fixer rewrites it to the quoted spaced form
`column 'Sales AmountUSD'`: a single space before every uppercase letter
immediately followed by a lowercase letter (skipping the identifier's first
character and letters preceded by a non-word character or underscore); an
uppercase letter followed by another uppercase letter or the end — the
trailing all-uppercase segment — receives no space. -/
theorem C2_visible_column_rewrite :
    checkPascalContent "column SalesAmountUSD".data =
      [⟨"column".data, "SalesAmountUSD".data, 1⟩] ∧
      addSpaces "SalesAmountUSD".data = "Sales AmountUSD".data ∧
      fixPascalContent (checkPascalContent "column SalesAmountUSD".data)
        "column SalesAmountUSD".data = exC2fixed := by
  exact ⟨by decide, by decide, by decide⟩

/-! ## C9: the annotation store round-trip -/

lemma findFrom_some {p : Char → Bool} :
    ∀ (l : List Char) (i j : Nat), findFrom p l i = some j →
      ∃ a c r, l = a ++ c :: r ∧ i + a.length = j ∧ p c = true := by
  intro l
  induction l with
  | nil => intro i j h; simp [findFrom] at h
  | cons c r ih =>
    intro i j h
    unfold findFrom at h
    by_cases hp : p c = true
    · rw [if_pos hp] at h
      obtain rfl : i = j := by simpa using h
      exact ⟨[], c, r, rfl, by simp, hp⟩
    · rw [if_neg hp] at h
      obtain ⟨a, c', r', hl, hlen, hc'⟩ := ih (i + 1) j h
      refine ⟨c :: a, c', r', by simp [hl], ?_, hc'⟩
      simp only [List.length_cons]
      omega

lemma spanGo_some (oc cc : Char) :
    ∀ (l : List Char) (pos d : Nat) (iS esc : Bool) (e : Nat),
      spanGo oc cc l pos d iS esc = some e →
      ∃ m b, l = m ++ cc :: b ∧ e = pos + m.length + 1 := by
  intro l
  induction l with
  | nil => intro pos d iS esc e h; simp [spanGo] at h
  | cons c r ih =>
    intro pos d iS esc e h
    unfold spanGo at h
    have step : ∀ (d' : Nat) (iS' esc' : Bool), spanGo oc cc r (pos + 1) d' iS' esc' = some e →
        ∃ m b, c :: r = m ++ cc :: b ∧ e = pos + m.length + 1 := by
      intro d' iS' esc' h'
      obtain ⟨m, b, hl, he⟩ := ih (pos + 1) d' iS' esc' e h'
      refine ⟨c :: m, b, by simp [hl], ?_⟩
      subst he
      simp only [List.length_cons]
      omega
    split_ifs at h with h1 h2 h3 h4 h5 h6 h7
    · exact step _ _ _ h
    · exact step _ _ _ h
    · exact step _ _ _ h
    · exact step _ _ _ h
    · exact step _ _ _ h
    · refine ⟨[], r, by simp [h6], ?_⟩
      simp only [Option.some.injEq] at h
      simp only [List.length_nil]
      omega
    · exact step _ _ _ h
    · exact step _ _ _ h

lemma splitTopGo_ne_nil :
    ∀ (l : List Char) (cur : List Char) (d : Nat) (iS esc : Bool),
      splitTopGo cur l d iS esc ≠ [] := by
  intro l
  induction l with
  | nil => intro cur d iS esc; simp [splitTopGo]
  | cons c r ih =>
    intro cur d iS esc
    unfold splitTopGo
    split_ifs <;> simp [ih]

lemma joinComma_cons (x : List Char) (L : List (List Char)) (hL : L ≠ []) :
    joinComma (x :: L) = x ++ ',' :: joinComma L := by
  cases L with
  | nil => exact absurd rfl hL
  | cons y t => rfl

lemma splitTopGo_join :
    ∀ (l : List Char) (cur : List Char) (d : Nat) (iS esc : Bool),
      joinComma (splitTopGo cur l d iS esc) = cur.reverse ++ l := by
  intro l
  induction l with
  | nil => intro cur d iS esc; simp [splitTopGo, joinComma]
  | cons c r ih =>
    intro cur d iS esc
    unfold splitTopGo
    have step : ∀ (cur' : List Char) (d' : Nat) (iS' esc' : Bool), cur' = c :: cur →
        joinComma (splitTopGo cur' r d' iS' esc') = cur.reverse ++ c :: r := by
      intro cur' d' iS' esc' hc
      rw [hc, ih (c :: cur) d' iS' esc']
      simp
    split_ifs with h1 h2 h3 h4 h5 h6 h7
    · exact step _ _ _ _ rfl
    · exact step _ _ _ _ rfl
    · exact step _ _ _ _ rfl
    · exact step _ _ _ _ rfl
    · rw [joinComma_cons _ _ (splitTopGo_ne_nil r [] d iS false),
        ih [] d iS false]
      simp [h5.1]
    · exact step _ _ _ _ rfl
    · exact step _ _ _ _ rfl
    · exact step _ _ _ _ rfl

lemma serialize_decode (inside : List Char) :
    serializeRecords (decodeRecords inside) = inside := by
  simpa using splitTopGo_join inside [] 0 false false

/-- C9: loading the record slices of the embedded annotation array and
saving them back unchanged reproduces the file text byte for byte; and for
any record list, save only replaces the bracketed span — the bytes before
the opening bracket and after the closing one are copied verbatim from the
original text. -/
theorem C9_save_load_roundtrip (text marker : List Char) (rs : List (List Char))
    (h : loadRules text marker = Except.ok rs) :
    saveRules text marker rs = Except.ok text ∧
      ∀ rs2 : List (List Char), ∃ pre post : List Char,
        saveRules text marker rs2 =
          Except.ok (pre ++ '[' :: (serializeRecords rs2 ++ ']' :: post)) ∧
        pre ++ '[' :: (serializeRecords rs ++ ']' :: post) = text := by
  unfold loadRules findBracketedSpan at h
  split at h
  · exact absurd h (by simp)
  · split at h
    · exact absurd h (by simp)
    · exact absurd h (by simp)
    · rename_i xopt i hfs sc s e h2
      split at h2
      · exact absurd h2 (by simp)
      · rename_i s2 hff
        split at h2
        · rename_i e2 hsg
          simp only [SpanRes.found.injEq] at h2
          obtain ⟨rfl, rfl⟩ := h2
          simp only [Except.ok.injEq] at h
          obtain ⟨a, c, r, hdrop, hlen, hc⟩ := findFrom_some (text.drop i) i s2 hff
          have hcbr : c = '[' := by simpa using hc
          subst hcbr
          obtain ⟨m, b, hr, he⟩ :=
            spanGo_some '[' ']' (text.drop (s2 + 1)) (s2 + 1) 1 false false e2 hsg
          have hilen : i ≤ text.length := by
            by_contra hlt
            have hnil : text.drop i = [] := List.drop_eq_nil_of_le (by omega)
            rw [hnil] at hdrop
            exact absurd hdrop (by simp)
          have hdrop1 : text.drop (s2 + 1) = r := by
            have hstep : text.drop (s2 + 1) = (text.drop i).drop (a.length + 1) := by
              rw [List.drop_drop]
              congr 1
              omega
            rw [hstep, hdrop, List.drop_append_eq_append_drop]
            simp
          have hrm : r = m ++ ']' :: b := by rw [← hdrop1, hr]
          have htext : text = text.take i ++ a ++ '[' :: (m ++ ']' :: b) := by
            conv_lhs => rw [← List.take_append_drop i text]
            rw [hdrop, hrm]
            simp
          have htakei : (text.take i).length = i := by
            rw [List.length_take]
            omega
          have htake : text.take s2 = text.take i ++ a := by
            conv_lhs => rw [htext]
            rw [List.append_assoc, List.take_append_eq_append_take, htakei]
            have hsub : s2 - i = a.length := by omega
            rw [List.take_append_eq_append_take, hsub]
            simp
            omega
          have hdropE : text.drop e2 = b := by
            have h1 : text.drop e2 = (text.drop (s2 + 1)).drop (m.length + 1) := by
              rw [List.drop_drop]
              congr 1
            rw [h1, hdrop1, hrm, List.drop_append_eq_append_drop]
            simp
          have hinside : (text.drop (s2 + 1)).take (e2 - s2 - 2) = m := by
            rw [hdrop1, hrm]
            have hm : e2 - s2 - 2 = m.length := by omega
            rw [hm]
            exact List.take_left m (']' :: b)
          have hsave : ∀ rs2 : List (List Char),
              saveRules text marker rs2 =
                Except.ok (text.take s2 ++ '[' ::
                  (serializeRecords rs2 ++ ']' :: text.drop e2)) := by
            intro rs2
            simp only [saveRules, findBracketedSpan, hfs, hff, hsg]
          have hrs : serializeRecords rs = m := by
            rw [← h, hinside, serialize_decode]
          constructor
          · rw [hsave rs, hrs, htake, hdropE]
            conv_rhs => rw [htext]
          · intro rs2
            refine ⟨text.take s2, text.drop e2, hsave rs2, ?_⟩
            rw [hrs, htake, hdropE]
            conv_rhs => rw [htext]
        · exact absurd h2 (by simp)

/-!
## C1: machinery for the unquoted-table scan

General list facts first, then anatomy (soundness) and construction
(completeness) lemmas for the deterministic pattern scanners.
-/

lemma takeWhile_all {p : Char → Bool} {u : List Char} (h : ∀ x ∈ u, p x = true) :
    u.takeWhile p = u := by
  induction u with
  | nil => rfl
  | cons a u ih =>
    have ha := h a (by simp)
    simp [List.takeWhile_cons, ha, ih (fun x hx => h x (by simp [hx]))]

lemma takeWhile_all_append {p : Char → Bool} {u : List Char} {c : Char} {t : List Char}
    (hu : ∀ x ∈ u, p x = true) (hc : p c = false) :
    (u ++ c :: t).takeWhile p = u := by
  induction u with
  | nil => simp [List.takeWhile_cons, hc]
  | cons a u ih =>
    have ha := hu a (by simp)
    simp [List.takeWhile_cons, ha, ih (fun x hx => hu x (by simp [hx]))]

/-- `takeWhile` ignores a continuation whose first character fails the
predicate. -/
lemma takeWhile_append_stop {p : Char → Bool} {b : List Char} (a : List Char)
    (hb : ∀ h, b.head? = some h → p h = false) :
    (a ++ b).takeWhile p = a.takeWhile p := by
  induction a with
  | nil =>
    cases b with
    | nil => rfl
    | cons h t => simp [List.takeWhile_cons, hb h rfl]
  | cons x a ih =>
    rw [List.cons_append, List.takeWhile_cons, List.takeWhile_cons]
    cases hx : p x
    · rfl
    · rw [ih]

lemma isPrefixOf_iff_take {p s : List Char} : p.isPrefixOf s = true ↔ s.take p.length = p := by
  rw [List.isPrefixOf_iff_prefix, List.prefix_iff_eq_take, eq_comm]

lemma isPrefixOf_append_left {p a b : List Char} (h : p.length ≤ a.length) :
    p.isPrefixOf (a ++ b) = p.isPrefixOf a := by
  cases hp : p.isPrefixOf a
  · cases hq : p.isPrefixOf (a ++ b)
    · rfl
    · rw [isPrefixOf_iff_take, List.take_append_of_le_length h] at hq
      rw [← isPrefixOf_iff_take] at hq
      rw [hp] at hq
      exact hq.symm
  · rw [isPrefixOf_iff_take] at hp ⊢
    rw [List.take_append_of_le_length h]
    exact hp

lemma letter_not_ws {c : Char} (h : isLetter c = true) : isWS c = false := by
  simp only [isLetter, isUp, isLo, Bool.or_eq_true, decide_eq_true_eq] at h
  simp only [isWS, decide_eq_false_iff_not]
  omega

lemma word_not_ws {c : Char} (h : isWord c = true) : isWS c = false := by
  simp only [isWord, isUp, isLo, isDi, Bool.or_eq_true, decide_eq_true_eq] at h
  simp only [isWS, decide_eq_false_iff_not]
  rcases h with ((h | h) | h) | h
  · omega
  · omega
  · omega
  · subst h
    decide

lemma nl_not_letter : isLetter '\n' = false := by decide

lemma nl_not_word : isWord '\n' = false := by decide

lemma drop_left' {l₁ l₂ : List Char} {n : Nat} (h : l₁.length = n) :
    (l₁ ++ l₂).drop n = l₂ := by
  subst h
  exact List.drop_left l₁ l₂

lemma take_left' {l₁ l₂ : List Char} {n : Nat} (h : l₁.length = n) :
    (l₁ ++ l₂).take n = l₁ := by
  subst h
  exact List.take_left l₁ l₂

/-- The head of `dropWhile` fails the predicate. -/
lemma dropWhile_head_false {p : Char → Bool} :
    ∀ {l : List Char} {d : Char} {t : List Char}, l.dropWhile p = d :: t → p d = false := by
  intro l
  induction l with
  | nil => intro d t h; exact absurd h (by simp)
  | cons a l ih =>
    intro d t h
    rw [List.dropWhile_cons] at h
    split at h
    · exact ih h
    · rename_i hpa
      obtain ⟨rfl, rfl⟩ : a = d ∧ l = t := by
        exact ⟨(List.cons.injEq ..).mp h |>.1, (List.cons.injEq ..).mp h |>.2⟩
      simpa using hpa

/-- `dropWhile` as a `drop` past the `takeWhile` run. -/
lemma drop_length_takeWhile {p : Char → Bool} (r : List Char) :
    r.drop (r.takeWhile p).length = r.dropWhile p := by
  have hdw := List.drop_left (r.takeWhile p) (r.dropWhile p)
  rw [List.takeWhile_append_dropWhile] at hdw
  exact hdw

/-- Anatomy of a successful unquoted-table match: the matched suffix
decomposes into the keyword, a nonempty whitespace run, the identifier
(letter then word characters, maximal), and the rest starting with a
non-word character. -/
lemma tryUT_some {s nm g0 : List Char} {n : Nat}
    (h : tryUT s = some ((nm, g0), n)) :
    ∃ ws c nmr r2,
      s = "table".data ++ ws ++ (c :: nmr) ++ r2 ∧
      nm = c :: nmr ∧
      ws ≠ [] ∧ (∀ x ∈ ws, isWS x = true) ∧
      isLetter c = true ∧ (∀ x ∈ nmr, isWord x = true) ∧
      n = 5 + ws.length + nm.length ∧
      g0 = "table".data ++ ws ++ nm ∧
      (∀ d, r2.head? = some d → isWord d = false) := by
  unfold tryUT at h
  split at h
  · rename_i hpf
    set r := (s.drop 5) with hr
    split at h
    · exact absurd h (by simp)
    · rename_i hwsne
      split at h
      · rename_i c r2 hsplit
        split at h
        · rename_i hlet
          simp only [Option.some.injEq, Prod.mk.injEq] at h
          obtain ⟨⟨hnm, hg0⟩, hn⟩ := h
          have hsdec : s = "table".data ++ r := by
            rw [List.isPrefixOf_iff_prefix] at hpf
            obtain ⟨t, ht⟩ := hpf
            rw [hr, ← ht, drop_left' (show ("table".data).length = 5 from rfl)]
          have hrdec : r = r.takeWhile isWS ++ (c :: r2) := by
            rw [← hsplit, drop_length_takeWhile, List.takeWhile_append_dropWhile]
          have h5 : ("table".data).length = 5 := rfl
          refine ⟨r.takeWhile isWS, c, r2.takeWhile isWord, r2.dropWhile isWord,
            ?_, hnm.symm, ?_, ?_, hlet, ?_, ?_, ?_, ?_⟩
          · rw [hsdec]
            conv_lhs => rw [hrdec]
            simp [List.takeWhile_append_dropWhile]
          · intro hcon
            rw [hcon] at hwsne
            exact hwsne (by simp)
          · exact fun x hx => List.mem_takeWhile_imp hx
          · exact fun x hx => List.mem_takeWhile_imp hx
          · rw [← hnm]
            omega
          · have hs2 : s = ("table".data ++ r.takeWhile isWS ++ (c :: r2.takeWhile isWord)) ++
                r2.dropWhile isWord := by
              rw [hsdec]
              conv_lhs => rw [hrdec]
              simp [List.takeWhile_append_dropWhile]
            rw [← hg0, ← hnm, hs2]
            exact take_left' (by
              simp only [List.length_append, List.length_cons, h5])
          · intro d hd
            cases hdw : r2.dropWhile isWord with
            | nil => rw [hdw] at hd; exact absurd hd (by simp)
            | cons d2 t2 =>
              rw [hdw] at hd
              simp only [List.head?_cons, Option.some.injEq] at hd
              subst hd
              exact dropWhile_head_false hdw
        · exact absurd h (by simp)
      · exact absurd h (by simp)
  · exact absurd h (by simp)

/-- Completeness of the unquoted-table matcher: on a suffix of the shape
keyword, whitespace run, identifier, non-word rest, it matches and returns
exactly that identifier and span. -/
lemma tryUT_build {ws nmr r2 : List Char} {c : Char}
    (hws : ws ≠ []) (hwsall : ∀ x ∈ ws, isWS x = true)
    (hc : isLetter c = true) (hnr : ∀ x ∈ nmr, isWord x = true)
    (hr2 : ∀ d, r2.head? = some d → isWord d = false) :
    tryUT ("table".data ++ ws ++ (c :: nmr) ++ r2) =
      some ((c :: nmr, "table".data ++ ws ++ (c :: nmr)),
            5 + ws.length + (c :: nmr).length) := by
  have h5 : ("table".data).length = 5 := rfl
  set s := "table".data ++ ws ++ (c :: nmr) ++ r2 with hs
  have hdrop5 : s.drop 5 = ws ++ ((c :: nmr) ++ r2) := by
    rw [hs, show ("table".data ++ ws ++ (c :: nmr) ++ r2 : List Char) =
      "table".data ++ (ws ++ ((c :: nmr) ++ r2)) from by simp]
    exact drop_left' h5
  have htw : (s.drop 5).takeWhile isWS = ws := by
    rw [hdrop5]
    exact takeWhile_all_append hwsall (letter_not_ws hc)
  have hdropws : (s.drop 5).drop ws.length = c :: (nmr ++ r2) := by
    rw [hdrop5]
    exact drop_left' rfl
  have hpf : "table".data.isPrefixOf s = true := by
    rw [List.isPrefixOf_iff_prefix, hs]
    exact ⟨ws ++ (c :: nmr) ++ r2, by simp⟩
  have htww : (nmr ++ r2).takeWhile isWord = nmr := by
    cases hr2c : r2 with
    | nil => simpa using takeWhile_all hnr
    | cons d td => exact takeWhile_all_append hnr (hr2 d (by rw [hr2c]; rfl))
  have hwse : ws.isEmpty = false := by
    cases ws
    · exact absurd rfl hws
    · rfl
  have htake : s.take (5 + ws.length + (c :: nmr).length) = "table".data ++ ws ++ (c :: nmr) := by
    rw [hs, show ("table".data ++ ws ++ (c :: nmr) ++ r2 : List Char) =
      ("table".data ++ ws ++ (c :: nmr)) ++ r2 from by simp]
    exact take_left' (by simp [h5]; omega)
  unfold tryUT
  rw [hpf, if_pos rfl, htw, hwse, hdropws]
  simp only [Bool.false_eq_true, if_false, hc, if_pos rfl, htww]
  rw [htake]
  rfl

/-- `(c :: l).count '\n'` in terms of the scanner's newline increment. -/
lemma count_cons_nl (c : Char) (l : List Char) :
    (c :: l).count '\n' = l.count '\n' + nlInc c := by
  by_cases h : c = '\n'
  · simp [List.count_cons, nlInc, h]
  · simp [List.count_cons, nlInc, h]

/-- Soundness of the finditer scan: every emission comes from a successful
match attempt at a line start, with line number one plus the newlines
before it. -/
lemma goScan_mem {α : Type} (t : List Char → Option (α × Nat)) :
    ∀ (s : List Char) (skip nl : Nat) (bol : Bool) (e : Nat × α),
      e ∈ goScan t skip nl bol s →
      ∃ u w a n, s = u ++ w ∧ t w = some (a, n) ∧ e = (nl + u.count '\n' + 1, a) ∧
        ((u = [] ∧ bol = true ∧ skip = 0) ∨ (u ≠ [] ∧ u.getLast? = some '\n')) := by
  intro s
  induction s with
  | nil => intro skip nl bol e h; simp [goScan] at h
  | cons c rest ih =>
    intro skip nl bol e h
    have step : ∀ k : Nat, e ∈ goScan t k (nl + nlInc c) (decide (c = '\n')) rest →
        ∃ u w a n, (c :: rest : List Char) = u ++ w ∧ t w = some (a, n) ∧
          e = (nl + u.count '\n' + 1, a) ∧
          ((u = [] ∧ bol = true ∧ skip = 0) ∨ (u ≠ [] ∧ u.getLast? = some '\n')) := by
      intro k h'
      obtain ⟨u, w, a, n, hsw, htw, he, hside⟩ := ih k (nl + nlInc c) (decide (c = '\n')) e h'
      refine ⟨c :: u, w, a, n, by simp [hsw], htw, ?_, Or.inr ⟨by simp, ?_⟩⟩
      · rw [he, count_cons_nl]
        simp only [Prod.mk.injEq]
        refine ⟨by omega, ?_⟩
        trivial
      · rcases hside with ⟨rfl, hbol, _⟩ | ⟨hne, hlast⟩
        · have hcnl : c = '\n' := by simpa using hbol
          simp [hcnl]
        · obtain ⟨x, xs, rfl⟩ := List.exists_cons_of_ne_nil hne
          rw [List.getLast?_cons_cons]
          exact hlast
    cases skip with
    | zero =>
      rw [goScan] at h
      cases bol with
      | false =>
        simp only [Bool.false_eq_true, if_false] at h
        exact step 0 h
      | true =>
        simp only [if_pos rfl] at h
        cases htc : t (c :: rest) with
        | none => rw [htc] at h; exact step 0 h
        | some p =>
          obtain ⟨a1, n1⟩ := p
          rw [htc] at h
          rcases List.mem_cons.mp h with heq | hmem
          · refine ⟨[], c :: rest, a1, n1, rfl, htc, ?_, Or.inl ⟨rfl, rfl, rfl⟩⟩
            simpa using heq
          · exact step (n1 - 1) hmem
    | succ k =>
      rw [goScan] at h
      exact step k h

lemma isEmpty_false_of_ne_nil {l : List Char} (h : l ≠ []) : l.isEmpty = false := by
  cases l
  · exact absurd rfl h
  · rfl

/-- The key no-absorption bound: a match of the unquoted-table scanner
starting at the head of `mid` (a newline-terminated chunk that is not a
truncated table header) ends within `mid` — it cannot absorb the following
`table dimSales` line. -/
lemma tryUT_bounded {mid post nm g0 : List Char} {n : Nat}
    (hne : mid ≠ []) (hlast : mid.getLast? = some '\n')
    (hbad : badTailUT mid = false)
    (h : tryUT (mid ++ ("table dimSales".data ++ post)) = some ((nm, g0), n)) :
    n ≤ mid.length := by
  obtain ⟨ws, c, nmr, r2, hdec, hnm, hwsne, hwsall, hc, hnr, hn, hg0, hr2⟩ := tryUT_some h
  by_contra hgt
  push_neg at hgt
  have h5 : ("table".data).length = 5 := rfl
  set Z := "table dimSales".data ++ post with hZ
  set L := mid.length with hL
  have hLpos : 1 ≤ L := by
    cases mid
    · exact absurd rfl hne
    · simp [hL]
  have hcomb : mid ++ Z = "table".data ++ (ws ++ ((c :: nmr) ++ r2)) := by
    rw [hdec]
    simp
  have hheadL : (mid ++ Z)[L]? = some 't' := by
    have h1 : (mid ++ Z).drop L = Z := drop_left' rfl
    have h2 := List.head?_drop (mid ++ Z) L
    rw [h1] at h2
    rw [← h2, hZ]
    rfl
  have hheadL1 : (mid ++ Z)[L - 1]? = some '\n' := by
    rw [List.getElem?_append_left (by omega)]
    rw [← List.getLast?_eq_getElem?] at *
    exact hlast
  have hwlen : n = 5 + ws.length + (1 + nmr.length) := by
    rw [hn, hnm]
    simp
    omega
  rcases Nat.lt_or_ge L 5 with hL5 | hL5
  · have h1 : (mid ++ Z)[L]? = ("table".data)[L]? := by
      rw [hcomb]
      exact List.getElem?_append_left (by rw [h5]; omega)
    rw [h1] at hheadL
    interval_cases L <;> exact absurd hheadL (by decide)
  · rcases Nat.lt_or_ge L (5 + ws.length) with hLw | hLw
    · have h1 : (mid ++ Z)[L]? = ws[L - 5]? := by
        rw [hcomb]
        rw [List.getElem?_append_right (by rw [h5]; omega), h5]
        exact List.getElem?_append_left (by omega)
      rw [h1] at hheadL
      have hmem : 't' ∈ ws := List.getElem?_mem hheadL
      exact absurd (hwsall 't' hmem) (by decide)
    · rcases Nat.eq_or_lt_of_le hLw with hLeq | hLgt
      · have hsplit2 : mid ++ Z = ("table".data ++ ws) ++ ((c :: nmr) ++ r2) := by
          rw [hdec]
          simp
        have hlen : mid.length = ("table".data ++ ws).length := by
          simp only [List.length_append, h5]
          omega
        obtain ⟨hmid, hZ2⟩ := List.append_inj hsplit2 hlen
        have hbt : badTailUT mid = true := by
          rw [hmid]
          unfold badTailUT
          have hp : "table".data.isPrefixOf ("table".data ++ ws) = true := by
            rw [List.isPrefixOf_iff_prefix]
            exact ⟨ws, rfl⟩
          have hd : ("table".data ++ ws).drop 5 = ws := drop_left' h5
          rw [hp, hd, isEmpty_false_of_ne_nil hwsne]
          simp only [Bool.not_false, Bool.true_and, Bool.and_eq_true]
          rw [List.all_eq_true]
          exact fun x hx => hwsall x hx
        rw [hbt] at hbad
        exact absurd hbad (by simp)
      · have h1 : (mid ++ Z)[L - 1]? = (c :: nmr)[L - 1 - (5 + ws.length)]? := by
          rw [hcomb]
          rw [List.getElem?_append_right (by rw [h5]; omega), h5]
          rw [List.getElem?_append_right (by omega)]
          rw [List.getElem?_append_left (by simp; omega)]
          congr 1
          omega
        rw [h1] at hheadL1
        have hmem : '\n' ∈ (c :: nmr) := List.getElem?_mem hheadL1
        rcases List.mem_cons.mp hmem with hnl | hnl
        · rw [← hnl] at hc
          exact absurd hc (by decide)
        · exact absurd (hnr '\n' hnl) (by decide)

lemma goScan_cons_match {α : Type} (t : List Char → Option (α × Nat)) (nl : Nat) (c : Char)
    (rest : List Char) (a : α) (n : Nat) (h : t (c :: rest) = some (a, n)) :
    goScan t 0 nl true (c :: rest) =
      (nl + 1, a) :: goScan t (n - 1) (nl + nlInc c) (decide (c = '\n')) rest := by
  rw [goScan, if_pos rfl, h]

lemma goScan_cons_none {α : Type} (t : List Char → Option (α × Nat)) (nl : Nat) (c : Char)
    (rest : List Char) (h : t (c :: rest) = none) :
    goScan t 0 nl true (c :: rest) = goScan t 0 (nl + nlInc c) (decide (c = '\n')) rest := by
  rw [goScan, if_pos rfl, h]

lemma goScan_cons_nobol {α : Type} (t : List Char → Option (α × Nat)) (nl : Nat) (c : Char)
    (rest : List Char) :
    goScan t 0 nl false (c :: rest) = goScan t 0 (nl + nlInc c) (decide (c = '\n')) rest := by
  rw [goScan]
  simp

lemma goScan_cons_skip {α : Type} (t : List Char → Option (α × Nat)) (k nl : Nat) (bol : Bool)
    (c : Char) (rest : List Char) :
    goScan t (k + 1) nl bol (c :: rest) = goScan t k (nl + nlInc c) (decide (c = '\n')) rest :=
  rfl

/-- The scanner on the target line itself: the unquoted-table pattern
matches `table dimSales` exactly when the line ends the file or is followed
by a newline. -/
lemma tryUT_target (post : List Char) (hpost : post = [] ∨ post.head? = some '\n') :
    tryUT ("table dimSales".data ++ post) =
      some (("dimSales".data, "table dimSales".data), 14) := by
  have hsplit : ("table dimSales".data : List Char) =
      "table".data ++ [' '] ++ ('d' :: "imSales".data) := by decide
  have hr2 : ∀ d, post.head? = some d → isWord d = false := by
    intro d hd
    rcases hpost with rfl | hh
    · exact absurd hd (by simp)
    · rw [hh] at hd
      obtain rfl : '\n' = d := by simpa using hd
      decide
  have h := @tryUT_build [' '] "imSales".data post 'd'
    (by simp) (by decide) (by decide) (by decide) hr2
  rw [hsplit]
  rw [show (("table".data ++ [' '] ++ ('d' :: "imSales".data) : List Char) ++ post) =
    "table".data ++ [' '] ++ ('d' :: "imSales".data) ++ post from by simp]
  rw [h]
  decide

/-- Skipping the rest of the matched `table dimSales` span. -/
lemma goScan_after_target {α : Type} (t : List Char → Option (α × Nat)) (nl : Nat)
    (post : List Char) :
    goScan t 13 nl false ("able dimSales".data ++ post) = goScan t 0 nl false post := rfl

/-- The main decomposition of the unquoted-table scan over
`pre ++ "table dimSales" ++ post`: under the no-absorber condition the scan
reaches the target line with no active match, emits exactly the `dimSales`
match there, and every earlier emission carries a strictly smaller line
number. -/
lemma utMain :
    ∀ (mid : List Char) (skip nl : Nat) (bol : Bool) (post : List Char),
      (mid = [] → skip = 0 ∧ bol = true) →
      (mid ≠ [] → mid.getLast? = some '\n') →
      skip ≤ mid.length →
      hasAbsorberGo mid = false →
      (skip = 0 → bol = true → badTailUT mid = false) →
      (post = [] ∨ post.head? = some '\n') →
      ∃ A : List (Nat × (List Char × List Char)),
        goScan tryUT skip nl bol (mid ++ ("table dimSales".data ++ post)) =
          A ++ (nl + mid.count '\n' + 1, ("dimSales".data, "table dimSales".data)) ::
            goScan tryUT 0 (nl + mid.count '\n') false post ∧
        ∀ e ∈ A, e.1 ≤ nl + mid.count '\n' := by
  intro mid
  induction mid with
  | nil =>
    intro skip nl bol post hmid hlast hskip hbadin hbad0 hpost
    obtain ⟨rfl, rfl⟩ := hmid rfl
    refine ⟨[], ?_, by simp⟩
    simp only [List.nil_append, List.count_nil, Nat.add_zero]
    rw [show ("table dimSales".data ++ post : List Char) =
      't' :: ("able dimSales".data ++ post) from rfl]
    rw [goScan_cons_match tryUT nl 't' ("able dimSales".data ++ post)
      ("dimSales".data, "table dimSales".data) 14 (tryUT_target post hpost)]
    rw [show (14 - 1 : Nat) = 13 from rfl, show nlInc 't' = 0 from rfl,
      show decide ('t' = '\n') = false from rfl, Nat.add_zero]
    rw [goScan_after_target]
    rfl
  | cons c mid' ih =>
    intro skip nl bol post hmid hlast hskip hbadin hbad0 hpost
    have hlast' : mid' ≠ [] → mid'.getLast? = some '\n' := by
      intro h'
      have hx := hlast (by simp)
      obtain ⟨x, xs, rfl⟩ := List.exists_cons_of_ne_nil h'
      rw [List.getLast?_cons_cons] at hx
      exact hx
    have hlastc : mid' = [] → c = '\n' := by
      intro h'
      subst h'
      have hx := hlast (by simp)
      simpa using hx
    have hbadin' : hasAbsorberGo mid' = false ∧ (c = '\n' → badTailUT mid' = false) := by
      rw [hasAbsorberGo] at hbadin
      have h1 : (decide (c = '\n') && badTailUT mid') = false ∧ hasAbsorberGo mid' = false := by
        constructor
        · cases hx : (decide (c = '\n') && badTailUT mid')
          · rfl
          · rw [hx] at hbadin; simpa using hbadin
        · cases hx : hasAbsorberGo mid'
          · rfl
          · rw [hx] at hbadin; simpa using hbadin
      refine ⟨h1.2, fun hc => ?_⟩
      have h2 := h1.1
      rw [hc] at h2
      simpa using h2
    have hcons : ((c :: mid') ++ ("table dimSales".data ++ post) : List Char) =
        c :: (mid' ++ ("table dimSales".data ++ post)) := rfl
    have hcnt1 : 1 ≤ (c :: mid').count '\n' := by
      have hmem : '\n' ∈ (c :: mid') := List.mem_of_mem_getLast? (hlast (by simp))
      have := List.count_pos_iff.mpr hmem
      omega
    cases skip with
    | succ k =>
      rw [hcons, goScan_cons_skip]
      obtain ⟨A, hEq, hBound⟩ := ih k (nl + nlInc c) (decide (c = '\n')) post
        (fun h' => ⟨by
            subst h'
            simp at hskip
            omega,
          by rw [hlastc h']; rfl⟩)
        hlast'
        (by simp at hskip; omega)
        hbadin'.1
        (fun _ hbl => hbadin'.2 (of_decide_eq_true hbl))
        hpost
      refine ⟨A, ?_, ?_⟩
      · rw [hEq, count_cons_nl]
        have e : nl + nlInc c + List.count '\n' mid' = nl + (List.count '\n' mid' + nlInc c) := by
          omega
        rw [e]
      · intro e he
        have := hBound e he
        rw [count_cons_nl]
        omega
    | zero =>
      cases bol with
      | false =>
        rw [hcons, goScan_cons_nobol]
        obtain ⟨A, hEq, hBound⟩ := ih 0 (nl + nlInc c) (decide (c = '\n')) post
          (fun h' => ⟨rfl, by rw [hlastc h']; rfl⟩)
          hlast'
          (by simp)
          hbadin'.1
          (fun _ hbl => hbadin'.2 (of_decide_eq_true hbl))
          hpost
        refine ⟨A, ?_, ?_⟩
        · rw [hEq, count_cons_nl]
          have e : nl + nlInc c + List.count '\n' mid' =
              nl + (List.count '\n' mid' + nlInc c) := by omega
          rw [e]
        · intro e he
          have := hBound e he
          rw [count_cons_nl]
          omega
      | true =>
        cases hm : tryUT ((c :: mid') ++ ("table dimSales".data ++ post)) with
        | none =>
          rw [hcons, goScan_cons_none tryUT nl c
            (mid' ++ ("table dimSales".data ++ post)) hm]
          obtain ⟨A, hEq, hBound⟩ := ih 0 (nl + nlInc c) (decide (c = '\n')) post
            (fun h' => ⟨rfl, by rw [hlastc h']; rfl⟩)
            hlast'
            (by simp)
            hbadin'.1
            (fun _ hbl => hbadin'.2 (of_decide_eq_true hbl))
            hpost
          refine ⟨A, ?_, ?_⟩
          · rw [hEq, count_cons_nl]
            have e : nl + nlInc c + List.count '\n' mid' =
                nl + (List.count '\n' mid' + nlInc c) := by omega
            rw [e]
          · intro e he
            have := hBound e he
            rw [count_cons_nl]
            omega
        | some p =>
          obtain ⟨⟨nm, g0⟩, n⟩ := p
          have hbadc : badTailUT (c :: mid') = false := hbad0 rfl rfl
          have hnle : n ≤ (c :: mid').length :=
            tryUT_bounded (by simp) (hlast (by simp)) hbadc hm
          have hn7 : 7 ≤ n := by
            obtain ⟨ws, c2, nmr, r2, _, hnm, hwsne, _, _, _, hn, _, _⟩ := tryUT_some hm
            have hw1 : 1 ≤ ws.length := List.length_pos.mpr hwsne
            rw [hn, hnm]
            simp only [List.length_cons]
            omega
          rw [hcons, goScan_cons_match tryUT nl c
            (mid' ++ ("table dimSales".data ++ post)) (nm, g0) n hm]
          obtain ⟨A, hEq, hBound⟩ := ih (n - 1) (nl + nlInc c) (decide (c = '\n')) post
            (fun h' => by
              exfalso
              subst h'
              simp at hnle
              omega)
            hlast'
            (by simp at hnle; omega)
            hbadin'.1
            (fun hsk _ => by exfalso; omega)
            hpost
          refine ⟨(nl + 1, (nm, g0)) :: A, ?_, ?_⟩
          · rw [hEq, count_cons_nl]
            have e : nl + nlInc c + List.count '\n' mid' =
                nl + (List.count '\n' mid' + nlInc c) := by omega
            rw [e]
            simp
          · intro e he
            rcases List.mem_cons.mp he with rfl | heA
            · simpa using hcnt1
            · have := hBound e heA
              rw [count_cons_nl]
              omega

lemma tailEq_le {r : List Char} {e : Nat} (h : tailEq r = some e) : e ≤ r.length := by
  unfold tailEq at h
  split at h
  · rename_i rest hdrop
    simp only [Option.some.injEq] at h
    have hlt : (r.takeWhile isWS).length < r.length := by
      by_contra hge
      push_neg at hge
      rw [List.drop_eq_nil_of_le hge] at hdrop
      exact absurd hdrop (by simp)
    omega
  · split at h
    · simp only [Option.some.injEq] at h
      omega
    · split at h
      · simp only [Option.some.injEq] at h
        omega
      · exact absurd h (by simp)

/-- A successful quoted-table match always records `is_quoted = true`: the
matched text itself contains `table`, the whitespace run, and the quoted
identifier, so the `re.search` on group 0 succeeds. -/
lemma tryQT_quoted {s nm g0 : List Char} {n : Nat}
    (h : tryQT s = some ((nm, g0), n)) :
    searchQuoted "table".data nm g0 = true := by
  unfold tryQT at h
  split at h
  · rename_i hpf
    split at h
    · exact absurd h (by simp)
    · rename_i hwsne
      split at h
      · rename_i r2 hsplit
        split at h
        · exact absurd h (by simp)
        · rename_i hnmne
          split at h
          · rename_i r3 hsplit2
            split at h
            · rename_i e htail
              simp only [Option.some.injEq, Prod.mk.injEq] at h
              obtain ⟨⟨hnm, hg0⟩, hn⟩ := h
              have h5 : ("table".data).length = 5 := rfl
              set r := s.drop 5 with hr
              have hsdec : s = "table".data ++ r := by
                rw [List.isPrefixOf_iff_prefix] at hpf
                obtain ⟨t, ht⟩ := hpf
                rw [hr, ← ht, drop_left' h5]
              have hrdec : r = r.takeWhile isWS ++ ('\'' :: r2) := by
                rw [← hsplit, drop_length_takeWhile, List.takeWhile_append_dropWhile]
              have hr2dec : r2 = r2.takeWhile (fun d => d != '\'') ++ ('\'' :: r3) := by
                rw [← hsplit2, drop_length_takeWhile, List.takeWhile_append_dropWhile]
              have hele : e ≤ r3.length := tailEq_le htail
              -- the matched text
              have hs2 : s = ("table".data ++ r.takeWhile isWS ++
                  ('\'' :: (r2.takeWhile (fun d => d != '\'') ++ ['\'']))) ++ r3 := by
                rw [hsdec]
                conv_lhs => rw [hrdec]
                conv_lhs => rw [hr2dec]
                simp
              have hg0dec : g0 = "table".data ++ r.takeWhile isWS ++
                  ('\'' :: (r2.takeWhile (fun d => d != '\'') ++ ['\''])) ++ r3.take e := by
                rw [← hg0, hs2]
                rw [List.take_append_eq_append_take]
                have hlen : (("table".data ++ r.takeWhile isWS ++
                    ('\'' :: (r2.takeWhile (fun d => d != '\'') ++ ['\'']))) : List Char).length =
                    5 + (r.takeWhile isWS).length +
                      (r2.takeWhile (fun d => d != '\'')).length + 2 := by
                  simp only [List.length_append, List.length_cons, List.length_nil, h5]
                  omega
                rw [hlen]
                rw [show 5 + (r.takeWhile isWS).length +
                    (r2.takeWhile (fun d => d != '\'')).length + 2 + e -
                    (5 + (r.takeWhile isWS).length +
                      (r2.takeWhile (fun d => d != '\'')).length + 2) = e from by omega]
                congr 1
                rw [List.take_of_length_le]
                rw [hlen]
                omega
              -- the search succeeds on the matched text itself
              rw [searchQuoted, List.any_eq_true]
              refine ⟨g0, by simp [List.mem_tails], ?_⟩
              rw [searchQuotedAt, h5]
              have hgdrop : g0.drop 5 = r.takeWhile isWS ++
                  ('\'' :: (r2.takeWhile (fun d => d != '\'') ++ ['\'']) ++ r3.take e) := by
                rw [hg0dec]
                rw [show ("table".data ++ r.takeWhile isWS ++
                    ('\'' :: (r2.takeWhile (fun d => d != '\'') ++ ['\''])) ++ r3.take e :
                    List Char) =
                  "table".data ++ (r.takeWhile isWS ++
                    ('\'' :: (r2.takeWhile (fun d => d != '\'') ++ ['\'']) ++ r3.take e)) from
                  by simp]
                exact drop_left' h5
              have hpfg : "table".data.isPrefixOf g0 = true := by
                rw [List.isPrefixOf_iff_prefix, hg0dec]
                exact ⟨r.takeWhile isWS ++ ('\'' :: (r2.takeWhile (fun d => d != '\'') ++ ['\''])) ++
                  r3.take e, by simp⟩
              have htwg : (g0.drop 5).takeWhile isWS = r.takeWhile isWS := by
                rw [hgdrop]
                exact takeWhile_all_append (fun x hx => List.mem_takeWhile_imp hx) (by decide)
              have hdropg : (g0.drop 5).drop (r.takeWhile isWS).length =
                  '\'' :: (r2.takeWhile (fun d => d != '\'') ++ ['\'']) ++ r3.take e := by
                rw [hgdrop]
                exact drop_left' rfl
              rw [hpfg, htwg, hdropg]
              simp only [Bool.true_and, Bool.and_eq_true]
              constructor
              · have hwsf : (r.takeWhile isWS).isEmpty = false := by
                  cases hx : (r.takeWhile isWS).isEmpty
                  · rfl
                  · exact absurd hx hwsne
                rw [hwsf]
                rfl
              · rw [List.isPrefixOf_iff_prefix, ← hnm]
                exact ⟨r3.take e, by simp⟩
            · exact absurd h (by simp)
          · exact absurd h (by simp)
      · exact absurd h (by simp)
  · exact absurd h (by simp)

lemma mkUpper_some {ty : List Char} {e : Nat × (List Char × List Char)} {w : UViolation}
    (h : mkUpper ty e = some w) :
    w.vtype = ty ∧ w.line = e.1 ∧ w.name = e.2.1 ∧
      w.is_quoted = searchQuoted ty e.2.1 e.2.2 := by
  unfold mkUpper at h
  split at h
  · simp only [Option.some.injEq] at h
    rw [← h]
    exact ⟨rfl, rfl, rfl, rfl⟩
  · exact absurd h (by simp)

lemma filterMap_count_zero {α β : Type} [DecidableEq β] {f : α → Option β} {l : List α} {v : β}
    (h : ∀ a ∈ l, f a ≠ some v) : (l.filterMap f).count v = 0 := by
  rw [List.count_eq_zero]
  intro hmem
  obtain ⟨a, ha, hfa⟩ := List.mem_filterMap.mp hmem
  exact h a ha hfa

/-- The checker half of C1: over `pre ++ "table dimSales" ++ post` the
start-case checker reports the `dimSales` table violation exactly once,
with the declaration's line number and `is_quoted = false`. -/
lemma checkUpper_dimSales_count (pre post : List Char)
    (hpre : pre = [] ∨ pre.getLast? = some '\n')
    (hpost : post = [] ∨ post.head? = some '\n')
    (hfree : hasAbsorber pre = false) :
    (checkUpperContent (pre ++ ("table dimSales".data ++ post))).count
      ⟨"table".data, "dimSales".data, pre.count '\n' + 1, false⟩ = 1 := by
  set content := pre ++ ("table dimSales".data ++ post) with hcontent
  set v : UViolation := ⟨"table".data, "dimSales".data, pre.count '\n' + 1, false⟩ with hv
  have hvty : v.vtype = "table".data := rfl
  have hvline : v.line = pre.count '\n' + 1 := rfl
  have hvq : v.is_quoted = false := rfl
  -- measure scans contribute nothing
  have hQM : ((scanAll tryQM content).filterMap (mkUpper "measure".data)).count v = 0 := by
    refine filterMap_count_zero (fun a ha hfa => ?_)
    have := (mkUpper_some hfa).1
    rw [hvty] at this
    exact absurd this (by decide)
  have hUM : ((scanAll tryUM content).filterMap (mkUpper "measure".data)).count v = 0 := by
    refine filterMap_count_zero (fun a ha hfa => ?_)
    have := (mkUpper_some hfa).1
    rw [hvty] at this
    exact absurd this (by decide)
  -- quoted tables contribute nothing: their is_quoted flag is true
  have hQT : ((scanAll tryQT content).filterMap (mkUpper "table".data)).count v = 0 := by
    refine filterMap_count_zero (fun a ha hfa => ?_)
    obtain ⟨u, w, p, n, hsw, htw, hea, hside⟩ :=
      goScan_mem tryQT content 0 0 true a ha
    obtain ⟨hty, hline, hname, hq⟩ := mkUpper_some hfa
    have hp2 : p = a.2 := by rw [hea]
    rw [hp2] at htw
    have hqt := tryQT_quoted (show tryQT w = some ((a.2.1, a.2.2), n) from by
      rw [htw])
    rw [hqt, hvq] at hq
    exact Bool.false_ne_true hq
  -- the unquoted-table scan contributes exactly one
  have hlast : pre ≠ [] → pre.getLast? = some '\n' := by
    intro hne
    rcases hpre with rfl | h
    · exact absurd rfl hne
    · exact h
  have hfree2 : badTailUT pre = false ∧ hasAbsorberGo pre = false := by
    rw [hasAbsorber] at hfree
    constructor
    · cases hx : badTailUT pre
      · rfl
      · rw [hx] at hfree; simpa using hfree
    · cases hx : hasAbsorberGo pre
      · rfl
      · rw [hx] at hfree; simpa using hfree
  obtain ⟨A, hEq, hBound⟩ := utMain pre 0 0 true post
    (fun _ => ⟨rfl, rfl⟩) hlast (by simp) hfree2.2 (fun _ _ => hfree2.1) hpost
  simp only [Nat.zero_add] at hEq hBound
  have hUT : ((scanAll tryUT content).filterMap (mkUpper "table".data)).count v = 1 := by
    rw [scanAll, hcontent, hEq]
    rw [List.filterMap_append]
    rw [List.count_append]
    have hA : (A.filterMap (mkUpper "table".data)).count v = 0 := by
      refine filterMap_count_zero (fun a ha hfa => ?_)
      have hb := hBound a ha
      have hl := (mkUpper_some hfa).2.1
      have hva : v.line = a.1 := hl
      rw [hvline] at hva
      omega
    rw [hA]
    have hmk : mkUpper "table".data
        (pre.count '\n' + 1, ("dimSales".data, "table dimSales".data)) = some v := rfl
    rw [List.filterMap_cons, hmk]
    have htail : ((goScan tryUT 0 (pre.count '\n') false post).filterMap
        (mkUpper "table".data)).count v = 0 := by
      refine filterMap_count_zero (fun a ha hfa => ?_)
      obtain ⟨u, w, p, n, hsw, htw, hea, hside⟩ :=
        goScan_mem tryUT post 0 (pre.count '\n') false a ha
      rcases hside with ⟨_, hbol, _⟩ | ⟨hne, hlastu⟩
      · exact absurd hbol (by simp)
      · have hcntu : 1 ≤ u.count '\n' := by
          have hmem : '\n' ∈ u := List.mem_of_mem_getLast? hlastu
          have := List.count_pos_iff.mpr hmem
          omega
        have hl := (mkUpper_some hfa).2.1
        have hva : v.line = a.1 := hl
        rw [hvline, hea] at hva
        simp only at hva
        omega
    rw [List.count_cons, htail]
    simp
  -- assemble over the four concatenated scans
  rw [checkUpperContent]
  rw [List.count_append, List.count_append, List.count_append]
  rw [hQM, hUM, hQT, hUT]

lemma downK_some {nm r : List Char} {bnd : List Char → Bool} :
    ∀ {K k : Nat}, downK nm r bnd K = some k →
      1 ≤ k ∧ k ≤ K ∧ nm.isPrefixOf (r.drop k) = true ∧
        bnd (r.drop (k + nm.length)) = true := by
  intro K
  induction K with
  | zero => intro k h; exact absurd h (by simp [downK])
  | succ j ih =>
    intro k h
    rw [downK] at h
    split at h
    · rename_i htest
      simp only [Option.some.injEq] at h
      subst h
      rw [Bool.and_eq_true] at htest
      exact ⟨by omega, by omega, htest.1, htest.2⟩
    · obtain ⟨h1, h2, h3, h4⟩ := ih h
      exact ⟨h1, by omega, h3, h4⟩

lemma downK_congr {nm r1 r2 : List Char} {b1 b2 : List Char → Bool} :
    ∀ K : Nat, (∀ k, 1 ≤ k → k ≤ K →
      (nm.isPrefixOf (r1.drop k) && b1 (r1.drop (k + nm.length))) =
        (nm.isPrefixOf (r2.drop k) && b2 (r2.drop (k + nm.length)))) →
    downK nm r1 b1 K = downK nm r2 b2 K := by
  intro K
  induction K with
  | zero => intro _; rfl
  | succ j ih =>
    intro h
    rw [downK, downK]
    rw [← h (j + 1) (by omega) (by omega)]
    split
    · rfl
    · exact ih (fun k h1 h2 => h k h1 (by omega))

lemma isPrefixOf_length_le {p s : List Char} (h : p.isPrefixOf s = true) :
    p.length ≤ s.length :=
  (List.isPrefixOf_iff_prefix.mp h).length_le

lemma drop_getLast? {l : List Char} {n : Nat} (h : l.drop n ≠ []) :
    (l.drop n).getLast? = l.getLast? := by
  conv_rhs => rw [← List.take_append_drop n l]
  rw [List.getLast?_append_of_ne_nil _ h]

/-- The head of the target region. -/
lemma target_head (post : List Char) :
    ("table dimSales".data ++ post : List Char).head? = some 't' := rfl

/-- Locality of the unquoted substitution matcher: on a newline-terminated
chunk followed by the `table dimSales` line, the match attempt at the
chunk's head neither needs nor is disturbed by the continuation. -/
lemma trySubU_localized {mid post : List Char} (hne : mid ≠ [])
    (hlast : mid.getLast? = some '\n') :
    trySubU "table".data "dimSales".data (mid ++ ("table dimSales".data ++ post)) =
      trySubU "table".data "dimSales".data mid := by
  set X := "table dimSales".data ++ post with hX
  have h5 : ("table".data).length = 5 := rfl
  have h8 : ("dimSales".data).length = 8 := rfl
  rcases Nat.lt_or_ge mid.length 5 with hlen | hlen
  · -- too short for the keyword on both sides
    have halone : "table".data.isPrefixOf mid = false := by
      cases hx : "table".data.isPrefixOf mid
      · rfl
      · have := isPrefixOf_length_le hx
        rw [h5] at this
        omega
    have hfull : "table".data.isPrefixOf (mid ++ X) = false := by
      cases hx : "table".data.isPrefixOf (mid ++ X)
      · rfl
      · exfalso
        have hp1 : mid <+: mid ++ X := ⟨X, rfl⟩
        have hp2 : "table".data <+: mid ++ X := List.isPrefixOf_iff_prefix.mp hx
        have hp3 : mid <+: "table".data :=
          List.prefix_of_prefix_length_le hp1 hp2 (by rw [h5]; omega)
        have hmem : '\n' ∈ "table".data :=
          hp3.subset (List.mem_of_mem_getLast? hlast)
        exact absurd hmem (by decide)
    rw [trySubU, trySubU, halone, hfull]
    simp
  · -- keyword test agrees; the whitespace run and every candidate agree
    have hkw : "table".data.isPrefixOf (mid ++ X) = "table".data.isPrefixOf mid :=
      isPrefixOf_append_left (by rw [h5]; omega)
    cases hpf : "table".data.isPrefixOf mid with
    | false =>
      rw [trySubU, trySubU, hkw, hpf]
      simp
    | true =>
      have hdropf : (mid ++ X).drop 5 = mid.drop 5 ++ X := by
        rw [List.drop_append_eq_append_drop]
        rw [show (5 - mid.length : Nat) = 0 from by omega]
        rfl
      have htwf : ((mid ++ X).drop 5).takeWhile isWS = (mid.drop 5).takeWhile isWS := by
        rw [hdropf]
        refine takeWhile_append_stop _ (fun h hh => ?_)
        rw [hX] at hh
        rw [target_head] at hh
        obtain rfl : 't' = h := by simpa using hh
        decide
      have hM : ((mid.drop 5).takeWhile isWS).length ≤ mid.length - 5 := by
        have := (List.takeWhile_prefix isWS :
          (mid.drop 5).takeWhile isWS <+: mid.drop 5).length_le
        simp at this
        omega
      have htests : ∀ k, 1 ≤ k → k ≤ ((mid.drop 5).takeWhile isWS).length →
          ("dimSales".data.isPrefixOf (((mid ++ X).drop 5).drop k) &&
            bAfter "dimSales".data (((mid ++ X).drop 5).drop (k + ("dimSales".data).length))) =
          ("dimSales".data.isPrefixOf ((mid.drop 5).drop k) &&
            bAfter "dimSales".data ((mid.drop 5).drop (k + ("dimSales".data).length))) := by
        intro k hk1 hk2
        rw [hdropf, h8]
        have hdk : (mid.drop 5 ++ X).drop k = (mid.drop 5).drop k ++ X := by
          rw [List.drop_append_eq_append_drop]
          rw [show (k - (mid.drop 5).length : Nat) = 0 from by simp; omega]
          rfl
        set y := (mid.drop 5).drop k with hy
        have hylen : y.length = mid.length - 5 - k := by simp [hy]; omega
        have hysuf : y = mid.drop (5 + k) := by rw [hy, List.drop_drop]
        rcases Nat.lt_or_ge y.length 8 with hys | hys
        · -- too short: both prefix tests are false
          have ha : "dimSales".data.isPrefixOf y = false := by
            cases hx : "dimSales".data.isPrefixOf y
            · rfl
            · have := isPrefixOf_length_le hx
              rw [h8] at this
              omega
          have hf : "dimSales".data.isPrefixOf (y ++ X) = false := by
            cases hx : "dimSales".data.isPrefixOf (y ++ X)
            · rfl
            · exfalso
              rcases Nat.eq_zero_or_pos y.length with hy0 | hypos
              · -- y empty: dimSales would have to start the target line
                have hynil : y = [] := List.length_eq_zero.mp hy0
                rw [hynil] at hx
                simp only [List.nil_append] at hx
                rw [isPrefixOf_iff_take, h8] at hx
                rw [hX] at hx
                rw [List.take_append_of_le_length (by decide)] at hx
                exact absurd hx (by decide)
              · -- y nonempty: its final newline would sit inside dimSales
                have hyne : y ≠ [] := by
                  intro hcon
                  rw [hcon] at hypos
                  simp at hypos
                have hp1 : y <+: y ++ X := ⟨X, rfl⟩
                have hp2 : "dimSales".data <+: y ++ X := List.isPrefixOf_iff_prefix.mp hx
                have hp3 : y <+: "dimSales".data :=
                  List.prefix_of_prefix_length_le hp1 hp2 (by rw [h8]; omega)
                have hylast : y.getLast? = some '\n' := by
                  rw [hysuf, drop_getLast? (by rw [← hysuf]; exact hyne), hlast]
                have hmem : '\n' ∈ "dimSales".data :=
                  hp3.subset (List.mem_of_mem_getLast? hylast)
                exact absurd hmem (by decide)
          rw [hdk, ha, hf]
          simp
        · rcases Nat.eq_or_lt_of_le hys with hy8 | hy9
          · -- exactly eight characters: equal iff y is literally dimSales,
            -- impossible since y ends in a newline
            have hyne : y ≠ [] := by
              intro hcon
              rw [hcon] at hy8
              simp at hy8
            have hylast : y.getLast? = some '\n' := by
              rw [hysuf, drop_getLast? (by rw [← hysuf]; exact hyne), hlast]
            have hyn : y ≠ "dimSales".data := by
              intro hcon
              rw [hcon] at hylast
              exact absurd hylast (by decide)
            have ha : "dimSales".data.isPrefixOf y = false := by
              cases hx : "dimSales".data.isPrefixOf y
              · rfl
              · exfalso
                rw [isPrefixOf_iff_take] at hx
                rw [h8, List.take_of_length_le (by omega)] at hx
                exact hyn hx
            have hf : "dimSales".data.isPrefixOf (y ++ X) = false := by
              cases hx : "dimSales".data.isPrefixOf (y ++ X)
              · rfl
              · exfalso
                rw [isPrefixOf_iff_take, h8] at hx
                rw [List.take_append_of_le_length (by omega)] at hx
                rw [List.take_of_length_le (by omega)] at hx
                exact hyn hx
            rw [hdk, ha, hf]
            simp
          · -- at least nine characters: the tests only read within y
            have hpre : "dimSales".data.isPrefixOf (y ++ X) =
                "dimSales".data.isPrefixOf y :=
              isPrefixOf_append_left (by rw [h8]; omega)
            have hfd : (mid.drop 5 ++ X).drop (k + 8) = y.drop 8 ++ X := by
              have h1 : (mid.drop 5 ++ X).drop (k + 8) =
                  ((mid.drop 5 ++ X).drop k).drop 8 := by
                rw [List.drop_drop]
              rw [h1, hdk, List.drop_append_eq_append_drop,
                show (8 - y.length : Nat) = 0 from by omega]
              rfl
            have had : (mid.drop 5).drop (k + 8) = y.drop 8 := by
              rw [hysuf, List.drop_drop, List.drop_drop]
              all_goals (congr 1 <;> omega)
            have hy8ne : y.drop 8 ≠ [] := by
              intro hcon
              have := List.drop_eq_nil_iff.mp hcon
              omega
            obtain ⟨d, td, hdt⟩ := List.exists_cons_of_ne_nil hy8ne
            have hb : bAfter "dimSales".data (y.drop 8 ++ X) =
                bAfter "dimSales".data (y.drop 8) := by
              rw [hdt]
              rfl
            rw [hdk, hfd, had, hpre, hb]
      -- assemble: keyword tests, whitespace runs and all candidates agree
      rw [trySubU, trySubU, hkw, hpf, if_pos rfl, if_pos rfl, h5, htwf]
      rw [downK_congr ((mid.drop 5).takeWhile isWS).length htests]

/-- A successful unquoted substitution match covers at least the two
pattern literals plus one whitespace character and never outruns the
text it matched in. -/
lemma trySubU_bound {s : List Char} {n : Nat}
    (h : trySubU "table".data "dimSales".data s = some n) :
    14 ≤ n ∧ n ≤ s.length := by
  rw [trySubU] at h
  split at h
  · split at h
    · rename_i k hdk
      obtain ⟨hk1, hk2, hpre, hbnd⟩ := downK_some hdk
      have hple := isPrefixOf_length_le hpre
      simp only [List.length_drop] at hple
      have h8 : ("dimSales".data).length = 8 := rfl
      have h5 : ("table".data).length = 5 := rfl
      rw [h8, h5] at hple
      obtain rfl : ("table".data).length + k + ("dimSales".data).length = n :=
        Option.some.inj h
      rw [h5, h8]
      omega
    · exact absurd h (by simp)
  · exact absurd h (by simp)

/-- The substitution pattern matches the target line itself, consuming all
fourteen characters, whenever the line ends the file or a newline follows. -/
lemma trySubU_target (post : List Char) (hpost : post = [] ∨ post.head? = some '\n') :
    trySubU "table".data "dimSales".data ("table dimSales".data ++ post) = some 14 := by
  rcases hpost with rfl | hh
  · rfl
  · cases post with
    | nil => simp at hh
    | cons c rest =>
      obtain rfl : c = '\n' := by simpa using hh
      rfl

lemma subGo_cons_match (t : List Char → Option Nat) (repl : List Char) (c : Char)
    (rest : List Char) (n : Nat) (h : t (c :: rest) = some n) :
    subGo t repl 0 (c :: rest) = repl ++ subGo t repl (n - 1) rest := by
  rw [subGo, h]

lemma subGo_cons_none (t : List Char → Option Nat) (repl : List Char) (c : Char)
    (rest : List Char) (h : t (c :: rest) = none) :
    subGo t repl 0 (c :: rest) = c :: subGo t repl 0 rest := by
  rw [subGo, h]

lemma subGo_cons_skip (t : List Char → Option Nat) (repl : List Char) (k : Nat) (c : Char)
    (rest : List Char) :
    subGo t repl (k + 1) (c :: rest) = subGo t repl k rest := rfl

lemma subGo_nil (t : List Char → Option Nat) (repl : List Char) (k : Nat) :
    subGo t repl k [] = [] := by
  cases k <;> rfl

/-- After emitting the replacement the scanner skips the thirteen remaining
characters of the matched span and resumes right after the target line. -/
lemma subGo_after_target (t : List Char → Option Nat) (repl post : List Char) :
    subGo t repl 13 ("able dimSales".data ++ post) = subGo t repl 0 post := rfl

/-- A text none of whose suffixes starts a match passes through `re.sub`
unchanged. -/
lemma subGo_id (t : List Char → Option Nat) (repl : List Char) :
    ∀ s : List Char, (∀ u ∈ s.tails, t u = none) → subGo t repl 0 s = s := by
  intro s
  induction s with
  | nil => intro _; rfl
  | cons c rest ih =>
    intro h
    rw [subGo_cons_none t repl c rest (h (c :: rest) ((List.mem_tails _ _).mpr ⟨[], rfl⟩))]
    rw [ih (fun u hu => h u ((List.mem_tails _ _).mpr
      (((List.mem_tails _ _).mp hu).trans (List.suffix_cons c rest))))]

/-- The substitution scan over `mid ++ "table dimSales" ++ post`
factorizes: the scan of `mid` is undisturbed, the target line is replaced,
and the scan resumes on `post`. -/
lemma subMain (repl : List Char) :
    ∀ (mid : List Char) (skip : Nat) (post : List Char),
      (mid ≠ [] → mid.getLast? = some '\n') → skip ≤ mid.length →
      (post = [] ∨ post.head? = some '\n') →
      subGo (trySubU "table".data "dimSales".data) repl skip
          (mid ++ ("table dimSales".data ++ post)) =
        subGo (trySubU "table".data "dimSales".data) repl skip mid ++
          (repl ++ subGo (trySubU "table".data "dimSales".data) repl 0 post) := by
  intro mid
  induction mid with
  | nil =>
    intro skip post _ hskip hpost
    obtain rfl : skip = 0 := Nat.le_zero.mp hskip
    simp only [List.nil_append, subGo_nil]
    have h14 := trySubU_target post hpost
    rw [show ("table dimSales".data ++ post : List Char) =
      't' :: ("able dimSales".data ++ post) from rfl]
    rw [subGo_cons_match _ repl 't' ("able dimSales".data ++ post) 14 h14]
    rw [show (14 - 1 : Nat) = 13 from rfl, subGo_after_target]
  | cons c rest ih =>
    intro skip post hlast hskip hpost
    have hrlast : rest ≠ [] → rest.getLast? = some '\n' := by
      intro hr
      have hcl := hlast (by simp)
      obtain ⟨d, td, rfl⟩ := List.exists_cons_of_ne_nil hr
      rw [List.getLast?_cons_cons] at hcl
      exact hcl
    cases skip with
    | succ j =>
      rw [List.cons_append, subGo_cons_skip, subGo_cons_skip]
      refine ih j post hrlast ?_ hpost
      simp only [List.length_cons] at hskip
      omega
    | zero =>
      have hloc := @trySubU_localized (c :: rest) post (by simp) (hlast (by simp))
      cases ht : trySubU "table".data "dimSales".data (c :: rest) with
      | none =>
        have hfull : trySubU "table".data "dimSales".data
            (c :: (rest ++ ("table dimSales".data ++ post))) = none := hloc.trans ht
        rw [List.cons_append, subGo_cons_none _ repl _ _ hfull,
          subGo_cons_none _ repl _ _ ht,
          ih 0 post hrlast (Nat.zero_le _) hpost, List.cons_append]
      | some n =>
        have hfull : trySubU "table".data "dimSales".data
            (c :: (rest ++ ("table dimSales".data ++ post))) = some n := hloc.trans ht
        obtain ⟨hn14, hnle⟩ := trySubU_bound ht
        have hj : n - 1 ≤ rest.length := by
          simp only [List.length_cons] at hnle
          omega
        rw [List.cons_append, subGo_cons_match _ repl _ _ n hfull,
          subGo_cons_match _ repl _ _ n ht,
          ih (n - 1) post hrlast hj hpost, List.append_assoc]

/-!
## Convergence on single-declaration files (C6)

For a model file holding exactly one declaration the fixers' rewrite and
the checkers' verdicts can be computed in closed form, uniformly in the
identifier.
-/

lemma word_ne_quote {c : Char} (h : isWord c = true) : c ≠ '\'' := by
  intro hc
  rw [hc] at h
  exact absurd h (by decide)

/-- C9 witness: a concrete annotated text round-trips. -/
theorem C9_witness :
    saveRules "annotation Rules = [1,2] tail".data "annotation Rules".data
        (["1".data, "2".data]) = Except.ok "annotation Rules = [1,2] tail".data :=
  (C9_save_load_roundtrip "annotation Rules = [1,2] tail".data "annotation Rules".data
    ["1".data, "2".data] (by rfl)).1

/-- C1 counterexample: the text `table\ntable dimSales` contains the line
`table dimSales` as its second line (the first conjunct exhibits the
decomposition), yet the start-case checker reports no violation at all
naming `dimSales`: the unquoted-table pattern applied at line 1 absorbs
the newline into its `\s+` and captures the second line's keyword as the
name, and the scan resumes past the declaration. -/
theorem C1_counterexample :
    (∃ pre post : List Char,
        ("table\ntable dimSales".data : List Char) =
          pre ++ ("table dimSales".data ++ post) ∧
        (pre = [] ∨ pre.getLast? = some '\n') ∧
        (post = [] ∨ post.head? = some '\n')) ∧
    ∀ v ∈ checkUpperContent "table\ntable dimSales".data,
      v.name ≠ "dimSales".data := by
  constructor
  · exact ⟨"table\n".data, [], by decide, Or.inr (by decide), Or.inl rfl⟩
  · decide

/-- C1 (amended): if a model file text decomposes as
`pre ++ "table dimSales" ++ post` where `pre` ends at a line boundary,
the target line ends the file or is followed by a newline, no line start
of `pre` begins a truncated `table`-plus-whitespace header running to the
boundary (otherwise that header's `\s+` absorbs the target line), and no
suffix of `pre` or of `post` starts a `table\s+dimSales\b` match (so the
fixer's substitution touches nothing else), then the start-case checker
reports exactly one violation for the declaration - construct type
`table`, identifier `dimSales`, the declaration's 1-based line number
`pre.count '\n' + 1`, quoted flag `false` - and the start-case fixer
applied to that violation rewrites exactly the target line to
`table DimSales`. -/
theorem C1_dimSales_reported_and_fixed (pre post : List Char)
    (hpre : pre = [] ∨ pre.getLast? = some '\n')
    (hpost : post = [] ∨ post.head? = some '\n')
    (hfree : hasAbsorber pre = false)
    (hpreclean : ∀ u ∈ pre.tails, trySubU "table".data "dimSales".data u = none)
    (hpostclean : ∀ u ∈ post.tails, trySubU "table".data "dimSales".data u = none) :
    (checkUpperContent (pre ++ ("table dimSales".data ++ post))).count
        ⟨"table".data, "dimSales".data, pre.count '\n' + 1, false⟩ = 1 ∧
      fixUpperOne ⟨"table".data, "dimSales".data, pre.count '\n' + 1, false⟩
          (pre ++ ("table dimSales".data ++ post)) =
        pre ++ ("table DimSales".data ++ post) := by
  constructor
  · exact checkUpper_dimSales_count pre post hpre hpost hfree
  · rw [show fixUpperOne ⟨"table".data, "dimSales".data, pre.count '\n' + 1, false⟩
          (pre ++ ("table dimSales".data ++ post)) =
        subGo (trySubU "table".data "dimSales".data)
          ("table".data ++ ' ' :: upFirst "dimSales".data) 0
          (pre ++ ("table dimSales".data ++ post)) from rfl]
    rw [subMain ("table".data ++ ' ' :: upFirst "dimSales".data) pre 0 post
      (fun h => hpre.resolve_left h) (Nat.zero_le _) hpost]
    rw [subGo_id (trySubU "table".data "dimSales".data)
      ("table".data ++ ' ' :: upFirst "dimSales".data) pre hpreclean]
    rw [subGo_id (trySubU "table".data "dimSales".data)
      ("table".data ++ ' ' :: upFirst "dimSales".data) post hpostclean]
    rw [show ("table".data ++ ' ' :: upFirst "dimSales".data : List Char) =
      "table DimSales".data from by decide]

/-- C1 witness: the file `x\n` + `table dimSales` + `\ny` satisfies every
hypothesis, the checker reports the single line-2 violation, and the fixer
rewrites the line to `table DimSales`. -/
theorem C1_witness :
    (checkUpperContent ("x\n".data ++ ("table dimSales".data ++ "\ny".data))).count
        ⟨"table".data, "dimSales".data, "x\n".data.count '\n' + 1, false⟩ = 1 ∧
      fixUpperOne ⟨"table".data, "dimSales".data, "x\n".data.count '\n' + 1, false⟩
          ("x\n".data ++ ("table dimSales".data ++ "\ny".data)) =
        "x\n".data ++ ("table DimSales".data ++ "\ny".data) :=
  C1_dimSales_reported_and_fixed "x\n".data "\ny".data (Or.inr (by decide))
    (Or.inr (by decide)) (by decide) (by decide) (by decide)

end PBISK
